import Mathlib

/-!
Shallow embedding of the scyllamigrate migration engine
(package `scyllamigrate`): filename parser, CQL statement splitter,
MD5 checksum, history-ledger protocol and the planner/executor
(`Up`, `Steps`, `DownTo`, `Version`, `Applied`), together with a small
heap model for the slice-copy semantics of `FSSource.Versions`.
-/

namespace Scylla

/-- Go `unicode.IsSpace`: the Unicode White_Space property. -/
def goIsSpace (c : Char) : Bool :=
  let n := c.toNat
  (9 ≤ n && n ≤ 13) || n == 32 || n == 0x85 || n == 0xA0 || n == 0x1680 ||
  (0x2000 ≤ n && n ≤ 0x200A) || n == 0x2028 || n == 0x2029 ||
  n == 0x202F || n == 0x205F || n == 0x3000

/-- Trim leading Unicode whitespace from a character list. -/
def trimLeft (l : List Char) : List Char := l.dropWhile goIsSpace

/-- Go `strings.TrimSpace` on a character list: trim both ends. -/
def trimChars (l : List Char) : List Char :=
  ((l.dropWhile goIsSpace).reverse.dropWhile goIsSpace).reverse

/-- Go `strings.HasPrefix(s, "--")` on a character list. -/
def startsDashDash : List Char → Bool
  | '-' :: '-' :: _ => true
  | _ => false

/-- Go `strings.HasSuffix(s, ";")` on a character list. -/
def endsSemi (l : List Char) : Bool := l.getLast? == some ';'

/-- Go `strings.TrimSuffix(s, ";")` on a character list: strips exactly one
trailing semicolon when present. -/
def trimOneSemi (l : List Char) : List Char :=
  if endsSemi l then l.dropLast else l

/-- Go `strings.Split(content, "\n")` on a character list. -/
def splitNl : List Char → List (List Char)
  | [] => [[]]
  | c :: cs =>
    if c = '\n' then [] :: splitNl cs
    else
      match splitNl cs with
      | [] => [[c]]
      | l :: ls => (c :: l) :: ls

/-- Finalizing a statement in `parseStatements`: trim, strip one trailing
semicolon, trim again; emit only when non-empty. -/
def finalizeStmt (cur : List Char) : Option (List Char) :=
  let s := trimChars cur
  let s := trimOneSemi s
  let s := trimChars s
  if s = [] then none else some s

/-- The line-processing loop of `Migrator.parseStatements`, over the split
lines, carrying the current statement accumulator. -/
def goLines : List (List Char) → List Char → List (List Char)
  | [], cur =>
    let r := trimChars cur
    if r = [] then [] else [r]
  | line :: rest, cur =>
    let t := trimChars line
    if t = [] then goLines rest cur
    else if startsDashDash t then goLines rest cur
    else
      let cur2 := cur ++ line ++ ['\n']
      if endsSemi t then
        match finalizeStmt cur2 with
        | none => goLines rest []
        | some s => s :: goLines rest []
      else goLines rest cur2

/-- `Migrator.parseStatements`: split migration content into individual CQL
statements.  Statements are separated by line-final semicolons; blank lines
and lines whose trimmed form starts with `--` are skipped. -/
def parseStatements (content : String) : List String :=
  (goLines (splitNl content.data) []).map (fun l => String.mk l)

/-! ### MD5 (`crypto/md5`) and hex encoding (`encoding/hex`)

`Migrator.checksum` calls `md5.Sum(content)` and hex-encodes the 16-byte
digest.  The digest is computed here over the byte sequence of the content
(UTF-8, as Go strings/byte slices are). -/

/-- Truncation to a 32-bit word. -/
def w32 (n : Nat) : Nat := n % 4294967296

/-- 32-bit left rotation. -/
def rotl32 (x s : Nat) : Nat := w32 ((x <<< s) ||| (x >>> (32 - s)))

/-- The 64 MD5 sine-table constants `K[i] = floor(2^32 * abs(sin(i+1)))`. -/
def md5K : List Nat :=
  [0xd76aa478, 0xe8c7b756, 0x242070db, 0xc1bdceee,
   0xf57c0faf, 0x4787c62a, 0xa8304613, 0xfd469501,
   0x698098d8, 0x8b44f7af, 0xffff5bb1, 0x895cd7be,
   0x6b901122, 0xfd987193, 0xa679438e, 0x49b40821,
   0xf61e2562, 0xc040b340, 0x265e5a51, 0xe9b6c7aa,
   0xd62f105d, 0x02441453, 0xd8a1e681, 0xe7d3fbc8,
   0x21e1cde6, 0xc33707d6, 0xf4d50d87, 0x455a14ed,
   0xa9e3e905, 0xfcefa3f8, 0x676f02d9, 0x8d2a4c8a,
   0xfffa3942, 0x8771f681, 0x6d9d6122, 0xfde5380c,
   0xa4beea44, 0x4bdecfa9, 0xf6bb4b60, 0xbebfbc70,
   0x289b7ec6, 0xeaa127fa, 0xd4ef3085, 0x04881d05,
   0xd9d4d039, 0xe6db99e5, 0x1fa27cf8, 0xc4ac5665,
   0xf4292244, 0x432aff97, 0xab9423a7, 0xfc93a039,
   0x655b59c3, 0x8f0ccc92, 0xffeff47d, 0x85845dd1,
   0x6fa87e4f, 0xfe2ce6e0, 0xa3014314, 0x4e0811a1,
   0xf7537e82, 0xbd3af235, 0x2ad7d2bb, 0xeb86d391]

/-- The 64 MD5 per-round left-rotation amounts. -/
def md5S : List Nat :=
  [7, 12, 17, 22, 7, 12, 17, 22, 7, 12, 17, 22, 7, 12, 17, 22,
   5, 9, 14, 20, 5, 9, 14, 20, 5, 9, 14, 20, 5, 9, 14, 20,
   4, 11, 16, 23, 4, 11, 16, 23, 4, 11, 16, 23, 4, 11, 16, 23,
   6, 10, 15, 21, 6, 10, 15, 21, 6, 10, 15, 21, 6, 10, 15, 21]

/-- `k` bytes of `n`, little endian. -/
def toLE (k n : Nat) : List Nat :=
  (List.range k).map (fun i => n / 256 ^ i % 256)

/-- MD5 padding: append `0x80`, zeros to 56 mod 64, then the 64-bit
little-endian bit length. -/
def md5Pad (msg : List Nat) : List Nat :=
  let len := msg.length
  let padLen := (64 + 56 - (len + 1) % 64) % 64
  msg ++ [0x80] ++ List.replicate padLen 0 ++ toLE 8 (8 * len % 2 ^ 64)

/-- The 16 little-endian 32-bit message words of a 64-byte block. -/
def md5Words (block : List Nat) : List Nat :=
  (List.range 16).map (fun i =>
    block.getD (4 * i) 0 + 256 * block.getD (4 * i + 1) 0 +
    65536 * block.getD (4 * i + 2) 0 + 16777216 * block.getD (4 * i + 3) 0)

/-- One of the 64 MD5 operations. -/
def md5Op (M : List Nat) (st : Nat × Nat × Nat × Nat) (i : Nat) :
    Nat × Nat × Nat × Nat :=
  let (a, b, c, d) := st
  let notW := fun x => 4294967295 - w32 x
  let (f, g) :=
    if i < 16 then ((b &&& c) ||| (notW b &&& d), i)
    else if i < 32 then ((d &&& b) ||| (notW d &&& c), (5 * i + 1) % 16)
    else if i < 48 then (b ^^^ c ^^^ d, (3 * i + 5) % 16)
    else (c ^^^ (b ||| notW d), (7 * i) % 16)
  let f := w32 (f + a + md5K.getD i 0 + M.getD g 0)
  (d, w32 (b + rotl32 f (md5S.getD i 0)), b, c)

/-- Process one 64-byte block into the running MD5 state. -/
def md5Block (st : Nat × Nat × Nat × Nat) (block : List Nat) :
    Nat × Nat × Nat × Nat :=
  let M := md5Words block
  let (a, b, c, d) := (List.range 64).foldl (md5Op M) st
  let (a0, b0, c0, d0) := st
  (w32 (a0 + a), w32 (b0 + b), w32 (c0 + c), w32 (d0 + d))

/-- MD5 digest of a byte sequence: sixteen bytes. -/
def md5 (msg : List Nat) : List Nat :=
  let padded := md5Pad msg
  let blocks := (List.range (padded.length / 64)).map
    (fun i => (padded.drop (64 * i)).take 64)
  let (a, b, c, d) :=
    blocks.foldl md5Block (0x67452301, 0xefcdab89, 0x98badcfe, 0x10325476)
  toLE 4 a ++ toLE 4 b ++ toLE 4 c ++ toLE 4 d

/-- One lowercase hex digit. -/
def hexDigit (n : Nat) : Char :=
  if n < 10 then Char.ofNat (48 + n) else Char.ofNat (87 + n)

/-- `hex.EncodeToString` over a byte list (lowercase). -/
def hexEncodeBytes (bs : List Nat) : String :=
  String.mk ((bs.map (fun b => [hexDigit (b / 16), hexDigit (b % 16)])).flatten)

/-- UTF-8 encoding of one character (Go strings are UTF-8 byte sequences). -/
def utf8Encode (c : Char) : List Nat :=
  let n := c.toNat
  if n < 0x80 then [n]
  else if n < 0x800 then [0xC0 + n / 64, 0x80 + n % 64]
  else if n < 0x10000 then
    [0xE0 + n / 4096, 0x80 + n / 64 % 64, 0x80 + n % 64]
  else
    [0xF0 + n / 0x40000, 0x80 + n / 4096 % 64, 0x80 + n / 64 % 64,
     0x80 + n % 64]

/-- The bytes of a Go string. -/
def strBytes (s : String) : List Nat := (s.data.map utf8Encode).flatten

/-- `Migrator.checksum`: the hex-encoded MD5 digest of the migration
content. -/
def checksumHex (content : String) : String :=
  hexEncodeBytes (md5 (strBytes content))

/-! ### Filename parser (`migration.go`)

`migrationRegex = ^([0-9]+)_(.+)\.(up|down)\.(cql|sql)$`, Go `regexp`
semantics: anchored at both ends, `.` does not match a newline, the digit
run is the maximal digit run at the start (a shorter run ends at a digit,
never at the required underscore), and the four direction/extension tails
are mutually exclusive literal suffixes. -/

/-- ASCII decimal digit. -/
def isDigit09 (c : Char) : Bool := 48 ≤ c.toNat && c.toNat ≤ 57

/-- Numeric value of a decimal digit run. -/
def digitsToNat (ds : List Char) : Nat :=
  ds.foldl (fun acc c => 10 * acc + (c.toNat - 48)) 0

/-- Go `strconv.ParseUint(s, 10, 64)` on a non-empty digit run: the value
when it fits in 64 bits, an out-of-range error otherwise. -/
def parseUint64 (ds : List Char) : Option Nat :=
  let n := digitsToNat ds
  if n < 18446744073709551616 then some n else none

/-- `Direction` is a string type in the source (`Up = "up"`,
`Down = "down"`). -/
abbrev Direction := String

/-- `Migration`: one parsed migration filename. -/
structure Migration where
  version : Nat
  description : String
  direction : Direction
  raw : String
deriving DecidableEq

/-- `ParseError{Filename, Err}`; `errMsg` is `some` of the wrapped
`strconv` message exactly when the digit run overflowed. -/
structure ParseErr where
  filename : String
  errMsg : Option String
deriving DecidableEq

/-- Strip one of the four literal tails `.up.cql`, `.up.sql`, `.down.cql`,
`.down.sql` from the end, returning the rest together with the matched
direction and extension groups. -/
def matchTail (l : List Char) : Option (List Char × String × String) :=
  let tryOne := fun (suf : String) (dir ext : String) =>
    if suf.data.isSuffixOf l then
      some (l.take (l.length - suf.length), dir, ext)
    else none
  (tryOne ".up.cql" "up" "cql").orElse fun _ =>
  (tryOne ".up.sql" "up" "sql").orElse fun _ =>
  (tryOne ".down.cql" "down" "cql").orElse fun _ =>
  tryOne ".down.sql" "down" "sql"

/-- `migrationRegex.FindStringSubmatch`: the four capture groups (digits,
description, direction, extension) when the pattern matches. -/
def matchMigration (filename : String) : Option (List Char × String × String × String) :=
  match matchTail filename.data with
  | none => none
  | some (rest, dir, ext) =>
    let ds := rest.takeWhile isDigit09
    if ds.isEmpty then none
    else
      match rest.drop ds.length with
      | '_' :: desc =>
        if desc.isEmpty then none
        else if desc.any (· = '\n') then none
        else some (ds, String.mk desc, dir, ext)
      | _ => none

/-- `IsMigrationFile`: does the filename match the migration pattern. -/
def IsMigrationFile (filename : String) : Bool :=
  (matchMigration filename).isSome

/-- `ParseMigration`: parse a filename into a `Migration`; a `ParseError`
carrying the filename when the pattern does not match or the digit run
overflows an unsigned 64-bit integer. -/
def ParseMigration (filename : String) : Except ParseErr Migration :=
  match matchMigration filename with
  | none => .error { filename := filename, errMsg := none }
  | some (ds, desc, dir, _ext) =>
    match parseUint64 ds with
    | none => .error { filename := filename, errMsg := some "value out of range" }
    | some v =>
      .ok { version := v, description := desc, direction := dir, raw := filename }

/-! ### Errors (`errors.go`)

Sentinels, `MigrationError{Version, Direction, Statement, Err}`,
`SourceError{Version, Op, Err}` and `fmt.Errorf("...: %w", err)` wrapping.
Errors produced by the driver/session are opaque (`external`). -/

/-- The package error taxonomy as used by the engine paths. -/
inductive GoError where
  | noChange
  | missingUp
  | missingDown
  | versionNotFound
  | migration (version : Nat) (direction : Direction) (statement : Nat) (err : GoError)
  | source (version : Nat) (op : String) (err : GoError)
  | wrapped (msg : String) (err : GoError)
  | external (msg : String)
deriving DecidableEq

/-! ### Data model (`migration.go`, history ledger rows) -/

/-- `MigrationPair`: the up/down bundle for one version. -/
structure MigrationPair where
  version : Nat
  description : String
  up : Option Migration
  down : Option Migration
deriving DecidableEq

/-- `MigrationPair.HasUp`. -/
def MigrationPair.HasUp (p : MigrationPair) : Bool := p.up.isSome

/-- `MigrationPair.HasDown`. -/
def MigrationPair.HasDown (p : MigrationPair) : Bool := p.down.isSome

/-- `AppliedMigration`: one row of the history table. -/
structure AppliedMigration where
  version : Nat
  description : String
  checksum : String
  appliedAt : Nat
  executionMs : Nat
deriving DecidableEq

/-! ### FSSource (`source.go`)

The scanned state of an `FSSource`: the underlying file tree (`fsys`,
filename to content), the version-keyed pair map (as an association list)
and the sorted auxiliary version list. -/

/-- The scanned state of an `FSSource`. -/
structure FSSource where
  fsys : String → Option String
  migrations : List (Nat × MigrationPair)
  versions : List Nat

/-- Go map lookup in the `migrations` map. -/
def FSSource.get (s : FSSource) (version : Nat) : Option MigrationPair :=
  (s.migrations.find? (fun kv => kv.1 == version)).map (·.2)

/-- `FSSource.List`: pairs in the order of the sorted version list. -/
def FSSource.list (s : FSSource) : List MigrationPair :=
  s.versions.filterMap s.get

/-- `FSSource.ReadUp`: content of the up migration of `version`. -/
def FSSource.readUp (s : FSSource) (version : Nat) : Except GoError String :=
  match s.get version with
  | none => .error (.source version "read up" .versionNotFound)
  | some pair =>
    match pair.up with
    | none => .error (.source version "read up" .missingUp)
    | some mig =>
      match s.fsys mig.raw with
      | none => .error (.source version "read up" (.external "open"))
      | some content => .ok content

/-- `FSSource.ReadDown`: content of the down migration of `version`. -/
def FSSource.readDown (s : FSSource) (version : Nat) : Except GoError String :=
  match s.get version with
  | none => .error (.source version "read down" .versionNotFound)
  | some pair =>
    match pair.down with
    | none => .error (.source version "read down" .missingDown)
    | some mig =>
      match s.fsys mig.raw with
      | none => .error (.source version "read down" (.external "open"))
      | some content => .ok content

/-! ### The engine state and its cluster environment

The cluster (session) is modelled as a deterministic oracle `Env`: the
result of executing a DDL statement, of the schema-agreement wait, and of
the ledger INSERT/DELETE/SELECT round trips.  The mutable cluster-side
state the engine observes is `World`: whether the history table exists,
the ledger rows, how many ledger INSERTs were attempted, and the trace of
migrations whose statements were submitted (version paired with
direction, in submission order). -/

/-- The cluster-side mutable state. -/
structure World where
  tableExists : Bool
  ledger : List AppliedMigration
  recordAttempts : Nat
  trace : List (Nat × Direction)
deriving DecidableEq

/-- The deterministic session/cluster oracle. -/
structure Env where
  exec : String → Option String
  agree : Option String
  recordErr : Nat → Option String
  removeErr : Nat → Option String
  ensureErr : Option String
  scanErr : Option String
  probeOk : Bool
  elapsedMs : Nat
  nowMs : Nat

/-- `Migrator`: the engine configuration (the session lives in `Env`). -/
structure Migrator where
  source : FSSource
  keyspace : String
  historyTable : String
  consistency : Nat
  waitForSchemaAgreement : Bool
  schemaAgreementTimeout : Nat

/-! ### History ledger operations (`history.go`) -/

/-- `historyTableExists`: probe `system_schema.tables`; any scan error
(including the not-found signal) is reported as `(false, nil)`. -/
def Migrator.historyTableExists (_m : Migrator) (env : Env) (w : World) :
    Bool × Option GoError :=
  if w.tableExists && env.probeOk then (true, none) else (false, none)

/-- `ensureHistoryTable`: `CREATE TABLE IF NOT EXISTS`, then the optional
schema-agreement wait. -/
def Migrator.ensureHistoryTable (m : Migrator) (env : Env) (w : World) :
    Option GoError × World :=
  match env.ensureErr with
  | some e => (some (.wrapped "failed to create history table" (.external e)), w)
  | none =>
    let w1 := { w with tableExists := true }
    if m.waitForSchemaAgreement then
      match env.agree with
      | some e => (some (.wrapped "failed to wait for schema agreement" (.external e)), w1)
      | none => (none, w1)
    else (none, w1)

/-- `recordMigration`: attempt the ledger INSERT; on success upsert the
row (primary key `version`). -/
def Migrator.recordMigration (_m : Migrator) (env : Env) (version : Nat)
    (description checksum : String) (durationMs : Nat) (w : World) :
    Option GoError × World :=
  let w1 := { w with recordAttempts := w.recordAttempts + 1 }
  match env.recordErr version with
  | some e =>
    (some (.wrapped ("failed to record migration " ++ toString version) (.external e)), w1)
  | none =>
    (none, { w1 with ledger :=
      w1.ledger.filter (fun r => r.version != version) ++
        [{ version := version, description := description, checksum := checksum,
           appliedAt := env.nowMs, executionMs := durationMs }] })

/-- `removeMigration`: attempt the ledger DELETE by primary key. -/
def Migrator.removeMigration (_m : Migrator) (env : Env) (version : Nat)
    (w : World) : Option GoError × World :=
  match env.removeErr version with
  | some e =>
    (some (.wrapped ("failed to remove migration record " ++ toString version) (.external e)), w)
  | none =>
    (none, { w with ledger := w.ledger.filter (fun r => r.version != version) })

/-- `getAppliedMigrations`: full scan of the ledger rows. -/
def Migrator.getAppliedMigrations (_m : Migrator) (env : Env) (w : World) :
    Except GoError (List AppliedMigration) :=
  match env.scanErr with
  | some e => .error (.wrapped "failed to read applied migrations" (.external e))
  | none => .ok w.ledger

/-- `getLatestVersion`: maximum version over the ledger rows, `0` when
empty. -/
def Migrator.getLatestVersion (m : Migrator) (env : Env) (w : World) :
    Except GoError Nat :=
  match m.getAppliedMigrations env w with
  | .error e => .error e
  | .ok applied =>
    .ok (applied.foldl (fun acc r => if acc < r.version then r.version else acc) 0)

/-- Membership of a version among the ledger rows (`getAppliedVersions`
set). -/
def hasVersion (rows : List AppliedMigration) (v : Nat) : Bool :=
  rows.any (fun r => r.version == v)

/-- The running-maximum fold of `getLatestVersion`, with explicit
accumulator. -/
def verMax (rows : List AppliedMigration) (a : Nat) : Nat :=
  rows.foldl (fun acc r => if acc < r.version then r.version else acc) a

/-! ### Planner / executor (`migrator.go`) -/

/-- The statement loop of `executeStatements`: submit each statement; the
first failure aborts with `MigrationError{version, direction, i+1, err}`
(`i` the zero-based position). -/
def execStmtsLoop (env : Env) (version : Nat) (direction : Direction) :
    List String → Nat → Option GoError
  | [], _ => none
  | s :: rest, i =>
    match env.exec s with
    | some e => some (.migration version direction (i + 1) (.external e))
    | none => execStmtsLoop env version direction rest (i + 1)

/-- `executeStatements`: split the content, submit every statement, then
the optional schema-agreement wait. -/
def Migrator.executeStatements (m : Migrator) (env : Env) (version : Nat)
    (direction : Direction) (content : String) : Option GoError :=
  match execStmtsLoop env version direction (parseStatements content) 0 with
  | some e => some e
  | none =>
    if m.waitForSchemaAgreement then
      match env.agree with
      | some e => some (.wrapped "failed to wait for schema agreement" (.external e))
      | none => none
    else none

/-- `readMigrationContent`: dispatch to `ReadUp`/`ReadDown`. -/
def Migrator.readMigrationContent (m : Migrator) (version : Nat)
    (direction : Direction) : Except GoError String :=
  if direction = "up" then m.source.readUp version
  else m.source.readDown version

/-- `applyUp`: one forward migration — missing-up check, read, checksum,
execute the statements, then record the ledger row. -/
def Migrator.applyUp (m : Migrator) (env : Env) (pair : MigrationPair)
    (w : World) : Option GoError × World :=
  match pair.up with
  | none => (some (.migration pair.version "up" 0 .missingUp), w)
  | some _ =>
    match m.readMigrationContent pair.version "up" with
    | .error e => (some e, w)
    | .ok content =>
      let checksum := checksumHex content
      let w1 := { w with trace := w.trace ++ [(pair.version, "up")] }
      match m.executeStatements env pair.version "up" content with
      | some e => (some e, w1)
      | none =>
        m.recordMigration env pair.version pair.description checksum env.elapsedMs w1

/-- `applyDown`: one rollback — locate the pair in the re-listed source,
missing-down check, read, execute, then delete the ledger row. -/
def Migrator.applyDown (m : Migrator) (env : Env) (version : Nat)
    (w : World) : Option GoError × World :=
  match (m.source.list).find? (fun p => p.version == version) with
  | none => (some (.migration version "down" 0 .versionNotFound), w)
  | some pair =>
    match pair.down with
    | none => (some (.migration version "down" 0 .missingDown), w)
    | some _ =>
      match m.readMigrationContent version "down" with
      | .error e => (some e, w)
      | .ok content =>
        let w1 := { w with trace := w.trace ++ [(version, "down")] }
        match m.executeStatements env version "down" content with
        | some e => (some e, w1)
        | none => m.removeMigration env version w1

/-- `Pending`: the source pairs whose version has no ledger row. -/
def Migrator.pending (m : Migrator) (env : Env) (w : World) :
    Except GoError (List MigrationPair) :=
  match m.getAppliedMigrations env w with
  | .error e => .error e
  | .ok applied =>
    .ok ((m.source.list).filter (fun p => ! hasVersion applied p.version))

/-- `Applied`: the ledger rows, or `(nil, nil)` when the history table
does not exist (read-only probe, no table creation). -/
def Migrator.applied (m : Migrator) (env : Env) (w : World) :
    Except GoError (List AppliedMigration) × World :=
  match m.historyTableExists env w with
  | (_, some e) => (.error e, w)
  | (tblExists, none) =>
    if !tblExists then (.ok [], w)
    else (m.getAppliedMigrations env w, w)

/-- `Version`: `0` when the history table does not exist (read-only
probe), otherwise the latest applied version. -/
def Migrator.version (m : Migrator) (env : Env) (w : World) :
    (Nat × Option GoError) × World :=
  match m.historyTableExists env w with
  | (_, some e) => ((0, some e), w)
  | (tblExists, none) =>
    if !tblExists then ((0, none), w)
    else
      match m.getLatestVersion env w with
      | .error e => ((0, some e), w)
      | .ok v => ((v, none), w)

/-- The `Up` loop: apply each pending pair, counting successes; stop at
the first error. -/
def upLoop (m : Migrator) (env : Env) :
    List MigrationPair → World → Nat → Nat × Option GoError × World
  | [], w, applied => (applied, none, w)
  | pair :: rest, w, applied =>
    match m.applyUp env pair w with
    | (some e, w1) => (applied, some e, w1)
    | (none, w1) => upLoop m env rest w1 (applied + 1)

/-- `Up`: ensure the history table, then apply every pending migration in
list (ascending version) order; `(0, nil)` when none are pending. -/
def Migrator.up (m : Migrator) (env : Env) (w : World) :
    Nat × Option GoError × World :=
  match m.ensureHistoryTable env w with
  | (some e, w1) => (0, some e, w1)
  | (none, w1) =>
    match m.pending env w1 with
    | .error e => (0, some e, w1)
    | .ok pendingList =>
      if pendingList.length = 0 then (0, none, w1)
      else upLoop m env pendingList w1 0

/-- The `Steps(n > 0)` loop: apply the pairs in order, stop at the first
error. -/
def applySeqUp (m : Migrator) (env : Env) :
    List MigrationPair → World → Option GoError × World
  | [], w => (none, w)
  | pair :: rest, w =>
    match m.applyUp env pair w with
    | (some e, w1) => (some e, w1)
    | (none, w1) => applySeqUp m env rest w1

/-- The `Steps(n < 0)` loop: roll the versions back in order, stop at the
first error. -/
def applySeqDown (m : Migrator) (env : Env) :
    List Nat → World → Option GoError × World
  | [], w => (none, w)
  | v :: rest, w =>
    match m.applyDown env v w with
    | (some e, w1) => (some e, w1)
    | (none, w1) => applySeqDown m env rest w1

/-- Insertion into a version-descending list. -/
def insertDesc (r : AppliedMigration) : List AppliedMigration → List AppliedMigration
  | [] => [r]
  | x :: xs => if x.version < r.version then r :: x :: xs else x :: insertDesc r xs

/-- `sort.Slice(applied, func(i, j) { return applied[i].Version >
applied[j].Version })`: a version-descending sort (the ledger's primary
key makes versions distinct, so any correct sort yields this list). -/
def sortDesc (l : List AppliedMigration) : List AppliedMigration :=
  l.foldr insertDesc []

/-- `Steps`: `n = 0` does nothing after ensuring the history table;
`n > 0` applies `min(n, len(pending))` pending migrations in ascending
order (`ErrNoChange` when none pending); `n < 0` rolls back
`min(-n, len(applied))` applied migrations in descending order
(`ErrNoChange` when none applied). -/
def Migrator.steps (m : Migrator) (env : Env) (w : World) (n : Int) :
    Option GoError × World :=
  match m.ensureHistoryTable env w with
  | (some e, w1) => (some e, w1)
  | (none, w1) =>
    if n = 0 then (none, w1)
    else if 0 < n then
      match m.pending env w1 with
      | .error e => (some e, w1)
      | .ok pendingList =>
        if pendingList.length = 0 then (some .noChange, w1)
        else
          applySeqUp m env (pendingList.take (min n.toNat pendingList.length)) w1
    else
      match m.getAppliedMigrations env w1 with
      | .error e => (some e, w1)
      | .ok applied =>
        if applied.length = 0 then (some .noChange, w1)
        else
          applySeqDown m env
            (((sortDesc applied).take (min (-n).toNat applied.length)).map (·.version)) w1

/-- The `DownTo` loop: roll back each row while its version exceeds the
target, counting successes; stop at the first error. -/
def downToLoop (m : Migrator) (env : Env) :
    List AppliedMigration → Nat → World → Nat → Nat × Option GoError × World
  | [], _, w, rolledBack => (rolledBack, none, w)
  | am :: rest, target, w, rolledBack =>
    if am.version ≤ target then (rolledBack, none, w)
    else
      match m.applyDown env am.version w with
      | (some e, w1) => (rolledBack, some e, w1)
      | (none, w1) => downToLoop m env rest target w1 (rolledBack + 1)

/-- `DownTo`: ensure the history table, sort the applied rows descending,
and roll back every version strictly greater than the target. -/
def Migrator.downTo (m : Migrator) (env : Env) (w : World) (target : Nat) :
    Nat × Option GoError × World :=
  match m.ensureHistoryTable env w with
  | (some e, w1) => (0, some e, w1)
  | (none, w1) =>
    match m.getAppliedMigrations env w1 with
    | .error e => (0, some e, w1)
    | .ok applied => downToLoop m env (sortDesc applied) target w1 0

/-! ### Slice heap model for `FSSource.Versions` (`source.go`)

`Versions` does `result := make([]uint64, len(s.versions));
copy(result, s.versions); return result`.  Go slices are references into
backing arrays, so copying versus aliasing is observable: the heap model
stores the backing arrays and `Versions` allocates a fresh one. -/

/-- A heap of `[]uint64` backing arrays, addressed by allocation index. -/
structure Heap where
  arrays : List (List Nat)

/-- Lookup of a backing array by index (empty when out of bounds). -/
def readArr : List (List Nat) → Nat → List Nat
  | [], _ => []
  | a :: _, 0 => a
  | _ :: rest, n + 1 => readArr rest n

/-- Read a slice through its reference. -/
def Heap.read (h : Heap) (r : Nat) : List Nat := readArr h.arrays r

/-- Allocate a fresh slice holding `xs`. -/
def Heap.alloc (h : Heap) (xs : List Nat) : Heap × Nat :=
  ({ arrays := h.arrays ++ [xs] }, h.arrays.length)

/-- Overwrite the slice behind a reference (any in-place mutation the
caller performs on a returned slice). -/
def Heap.write (h : Heap) (r : Nat) (xs : List Nat) : Heap :=
  { arrays := h.arrays.set r xs }

/-- An `FSSource` whose internal `versions` slice lives in the heap. -/
structure FSSourceRef where
  versionsRef : Nat
  migrations : Nat → Option MigrationPair

/-- `FSSource.Versions`: allocate a fresh slice, copy the internal version
list into it, and return the fresh reference. -/
def FSSourceRef.versionsCall (s : FSSourceRef) (h : Heap) : Nat × Heap :=
  let vs := h.read s.versionsRef
  let (h1, r) := h.alloc vs
  (r, h1)

/-- `FSSource.List` reads the internal `versions` slice and materializes
the pairs in that order. -/
def FSSourceRef.listCall (s : FSSourceRef) (h : Heap) : List MigrationPair :=
  (h.read s.versionsRef).filterMap s.migrations

/-! ### Environment assumptions and applicability predicates -/

/-- A cooperative cluster: every session round trip succeeds. -/
def EnvOk (env : Env) : Prop :=
  env.ensureErr = none ∧ env.agree = none ∧ env.scanErr = none ∧
  env.probeOk = true ∧ (∀ s, env.exec s = none) ∧
  (∀ v, env.recordErr v = none) ∧ (∀ v, env.removeErr v = none)

/-- The pair has an up half whose content is readable from the source. -/
def upApplicableB (m : Migrator) (pair : MigrationPair) : Bool :=
  pair.up.isSome &&
    match m.readMigrationContent pair.version "up" with
    | .ok _ => true
    | .error _ => false

/-- The content `applyUp` reads for a pair (meaningful when
`upApplicableB`). -/
def upContent (m : Migrator) (pair : MigrationPair) : String :=
  match m.readMigrationContent pair.version "up" with
  | .ok c => c
  | .error _ => ""

/-- The version can be rolled back: the re-listed source has its pair,
the pair has a down half, and the down content is readable. -/
def downApplicableB (m : Migrator) (version : Nat) : Bool :=
  match (m.source.list).find? (fun p => p.version == version) with
  | none => false
  | some pair =>
    pair.down.isSome &&
      match m.readMigrationContent version "down" with
      | .ok _ => true
      | .error _ => false

/-- The ledger row `applyUp` records for a pair from a given content. -/
def recordedRow (env : Env) (pair : MigrationPair) (content : String) :
    AppliedMigration :=
  { version := pair.version, description := pair.description,
    checksum := checksumHex content, appliedAt := env.nowMs,
    executionMs := env.elapsedMs }

/-- The pending list as a pure function of the engine and the world (what
`Pending` computes when the ledger scan succeeds). -/
def pendingOf (m : Migrator) (w : World) : List MigrationPair :=
  (m.source.list).filter (fun p => ! hasVersion w.ledger p.version)

/-- The pending pairs a `Steps(n > 0)` call applies. -/
def takenUp (m : Migrator) (w : World) (n : Int) : List MigrationPair :=
  (pendingOf m w).take (min n.toNat (pendingOf m w).length)

/-- The applied versions a `Steps(n < 0)` call rolls back, most recent
first. -/
def takenDown (w : World) (n : Int) : List Nat :=
  (((sortDesc w.ledger).take (min (-n).toNat w.ledger.length)).map (·.version))

/-! ### Concrete fixtures for witnesses -/

namespace Fix

/-- A parsed migration record. -/
def mig (v : Nat) (d : Direction) (raw : String) : Migration :=
  { version := v, description := "a", direction := d, raw := raw }

/-- A migration pair with optional up/down filenames. -/
def pair (v : Nat) (upRaw downRaw : Option String) : MigrationPair :=
  { version := v, description := "a",
    up := upRaw.map (mig v "up"), down := downRaw.map (mig v "down") }

/-- A two-version source: `1` (up `CREATE TABLE a;` / down `DROP TABLE a;`)
and `2` (up `CREATE INDEX i;` / down `DROP INDEX i;`). -/
def src2 : FSSource :=
  { fsys := fun n =>
      if n = "1_a.up.cql" then some "CREATE TABLE a;"
      else if n = "1_a.down.cql" then some "DROP TABLE a;"
      else if n = "2_a.up.cql" then some "CREATE INDEX i;"
      else if n = "2_a.down.cql" then some "DROP INDEX i;"
      else none,
    migrations := [(1, pair 1 (some "1_a.up.cql") (some "1_a.down.cql")),
                   (2, pair 2 (some "2_a.up.cql") (some "2_a.down.cql"))],
    versions := [1, 2] }

/-- A one-version source whose up content is empty. -/
def srcEmptyContent : FSSource :=
  { fsys := fun n => if n = "1_a.up.cql" then some "" else none,
    migrations := [(1, pair 1 (some "1_a.up.cql") none)],
    versions := [1] }

/-- Engine over `src2`. -/
def m2 : Migrator :=
  { source := src2, keyspace := "ks", historyTable := "schema_migrations",
    consistency := 2, waitForSchemaAgreement := true,
    schemaAgreementTimeout := 0 }

/-- Engine over `srcEmptyContent`. -/
def mEmpty : Migrator :=
  { source := srcEmptyContent, keyspace := "ks",
    historyTable := "schema_migrations", consistency := 2,
    waitForSchemaAgreement := true, schemaAgreementTimeout := 0 }

/-- The all-success session oracle. -/
def envOk : Env :=
  { exec := fun _ => none, agree := none, recordErr := fun _ => none,
    removeErr := fun _ => none, ensureErr := none, scanErr := none,
    probeOk := true, elapsedMs := 5, nowMs := 7 }

/-- A session oracle failing exactly on the statement `CREATE INDEX i`. -/
def envFailIdx : Env :=
  { envOk with exec := fun s => if s = "CREATE INDEX i" then some "boom" else none }

/-- Fresh cluster: no history table, empty ledger. -/
def wEmpty : World :=
  { tableExists := false, ledger := [], recordAttempts := 0, trace := [] }

/-- A ledger row for a version. -/
def row (v : Nat) : AppliedMigration :=
  { version := v, description := "a", checksum := "c", appliedAt := 0,
    executionMs := 0 }

/-- A world with versions 1 and 2 applied. -/
def wApplied12 : World :=
  { tableExists := true, ledger := [row 1, row 2], recordAttempts := 2,
    trace := [] }

/-- A heap whose array 0 is the version slice `[1, 2]`. -/
def heap1 : Heap := { arrays := [[1, 2]] }

/-- A referenced source whose `versions` slice is array 0 of `heap1`. -/
def fsrc : FSSourceRef :=
  { versionsRef := 0,
    migrations := fun v =>
      if v = 1 then some (pair 1 (some "1_a.up.cql") none)
      else if v = 2 then some (pair 2 (some "2_a.up.cql") none)
      else none }

end Fix

/-! ## Theorems -/

set_option maxRecDepth 8000

/-- Claim C1: the spec and the package's own tests require the recorded
checksum to be a 64-hex-character (256-bit, SHA-256-compatible) digest,
but `Migrator.checksum` computes an MD5 digest: the hex string is 32
characters, and on empty content it is the MD5 value
`d41d8cd98f00b204e9800998ecf8427e`, not the SHA-256 value the tests
assert — including for the row `applyUp` records. -/
theorem c1_checksum_is_md5_not_sha256 :
    checksumHex "" = "d41d8cd98f00b204e9800998ecf8427e" ∧
    (checksumHex "").length = 32 ∧
    (checksumHex "CREATE TABLE users;").length = 32 ∧
    checksumHex "" ≠
      "e3b0c44298fc1c149afbf4c8996fb92427ae41e4649b934ca495991b7852b855" ∧
    ((Fix.mEmpty.applyUp Fix.envOk (Fix.pair 1 (some "1_a.up.cql") none)
        Fix.wEmpty).2.ledger.map (fun r => r.checksum)) =
      ["d41d8cd98f00b204e9800998ecf8427e"] := by
  refine ⟨by decide, by decide, by decide, by decide, by decide⟩

/-- Claim C5 (counterexample): at `18446744073709551616_x.up.cql` (the
digit run is `2^64`, one past `uint64`), `IsMigrationFile` returns `true`
but `ParseMigration` fails, so the claimed equivalence is false. -/
theorem c5_overflow_counterexample :
    IsMigrationFile "18446744073709551616_x.up.cql" = true ∧
    (ParseMigration "18446744073709551616_x.up.cql").isOk = false := by
  exact ⟨by decide, by decide⟩

/-- Claim C5 (amended): a successful parse implies the predicate; a
matching filename either parses or fails with an overflow-carrying
`ParseError`; every `ParseError` carries the offending filename; and a
non-matching filename fails with a plain `ParseError`. -/
theorem c5_predicate_vs_parse (f : String) :
    ((ParseMigration f).isOk = true → IsMigrationFile f = true) ∧
    (IsMigrationFile f = true →
      (ParseMigration f).isOk = true ∨
      ∃ e, ParseMigration f = .error e ∧ e.errMsg.isSome = true) ∧
    (∀ e, ParseMigration f = .error e → e.filename = f) ∧
    (IsMigrationFile f = false →
      ParseMigration f = .error { filename := f, errMsg := none }) := by
  unfold ParseMigration IsMigrationFile
  cases hm : matchMigration f with
  | none => simp [Except.isOk, Except.toBool]
  | some q =>
    obtain ⟨ds, desc, dir, ext⟩ := q
    cases hp : parseUint64 ds with
    | none => simp [hp, Except.isOk, Except.toBool]
    | some v => simp [hp, Except.isOk, Except.toBool]

/-- Claim C5 (witness). -/
theorem c5_predicate_vs_parse_witness :
    IsMigrationFile "000001_create_users.up.cql" = true :=
  (c5_predicate_vs_parse "000001_create_users.up.cql").1 (by decide)

/-- Claim C6: the splitter skips blank and `--` lines, accumulates a line
whose trimmed form does not end in `;` (so a `; -- comment` tail is not a
terminator), emits on a `;`-final trimmed line after stripping exactly one
trailing `;`, emits a non-empty final accumulator, and on the spec's
concrete input produces exactly the three statements. -/
theorem c6_parse_statements_splitter :
    parseStatements "-- c\nCREATE TABLE a;\n\n-- d\nCREATE TABLE b;\nDROP TABLE c" =
      ["CREATE TABLE a", "CREATE TABLE b", "DROP TABLE c"] ∧
    parseStatements "CREATE TABLE x; -- note" = ["CREATE TABLE x; -- note"] ∧
    (∀ line rest cur, trimChars line = [] →
      goLines (line :: rest) cur = goLines rest cur) ∧
    (∀ line rest cur, startsDashDash (trimChars line) = true →
      goLines (line :: rest) cur = goLines rest cur) ∧
    (∀ line rest cur, trimChars line ≠ [] →
      startsDashDash (trimChars line) = false →
      endsSemi (trimChars line) = false →
      goLines (line :: rest) cur = goLines rest (cur ++ line ++ ['\n'])) ∧
    (∀ line rest cur s, trimChars line ≠ [] →
      startsDashDash (trimChars line) = false →
      endsSemi (trimChars line) = true →
      finalizeStmt (cur ++ line ++ ['\n']) = some s →
      goLines (line :: rest) cur = s :: goLines rest []) ∧
    (∀ cur s, finalizeStmt cur = some s →
      s = trimChars (trimOneSemi (trimChars cur))) ∧
    (∀ cur, trimChars cur ≠ [] → goLines [] cur = [trimChars cur]) := by
  refine ⟨by decide, by decide, ?_, ?_, ?_, ?_, ?_, ?_⟩
  · intro line rest cur h
    simp [goLines, h]
  · intro line rest cur h
    by_cases h0 : trimChars line = [] <;> simp [goLines, h, h0]
  · intro line rest cur h1 h2 h3
    simp [goLines, h1, h2, h3]
  · intro line rest cur s h1 h2 h3 h4
    have h5 : finalizeStmt (cur ++ (line ++ ['\n'])) = some s := by
      rw [← List.append_assoc]
      exact h4
    simp [goLines, h1, h2, h3, h5]
  · intro cur s h
    unfold finalizeStmt at h
    by_cases h0 : trimChars (trimOneSemi (trimChars cur)) = [] <;>
      simp [h0] at h
    exact h.symm
  · intro cur h
    simp [goLines, h]

/-- Claim C6 (witness). -/
theorem c6_parse_statements_splitter_witness :
    goLines ([' '] :: [['A']]) [] = goLines [['A']] [] :=
  c6_parse_statements_splitter.2.2.1 [' '] [['A']] [] (by decide)

/-- Claim C9: with the history table absent, `Applied` returns an empty
list and no error, and leaves the world (in particular the table) as it
was — the probe is read-only. -/
theorem c9_applied_no_table (m : Migrator) (env : Env) (w : World)
    (h : w.tableExists = false) :
    m.applied env w = (.ok [], w) := by
  simp [Migrator.applied, Migrator.historyTableExists, h]

/-- Claim C9 (witness). -/
theorem c9_applied_no_table_witness :
    Fix.m2.applied Fix.envOk Fix.wEmpty = (.ok [], Fix.wEmpty) :=
  c9_applied_no_table Fix.m2 Fix.envOk Fix.wEmpty rfl

theorem readArr_append_self (l : List (List Nat)) (x : List Nat) :
    readArr (l ++ [x]) l.length = x := by
  induction l with
  | nil => rfl
  | cons a rest ih => simpa [readArr] using ih

theorem readArr_append_lt (l : List (List Nat)) (x : List Nat) (j : Nat)
    (h : j < l.length) : readArr (l ++ [x]) j = readArr l j := by
  induction l generalizing j with
  | nil => simp at h
  | cons a rest ih =>
    cases j with
    | zero => rfl
    | succ j =>
      simp only [List.cons_append, readArr]
      exact ih j (by simpa using h)

theorem readArr_set_ne (l : List (List Nat)) (i j : Nat) (x : List Nat)
    (h : i ≠ j) : readArr (l.set i x) j = readArr l j := by
  induction l generalizing i j with
  | nil => simp [List.set]
  | cons a rest ih =>
    cases i with
    | zero =>
      cases j with
      | zero => exact absurd rfl h
      | succ j => simp [List.set, readArr]
    | succ i =>
      cases j with
      | zero => simp [List.set, readArr]
      | succ j =>
        simp only [List.set, readArr]
        exact ih i j (by omega)

/-- Claim C10: `Versions` hands out a fresh reference holding a copy of
the internal version slice; overwriting the returned slice leaves the
source's internal slice untouched, so a later `Versions` or `List` call
sees the original versions. -/
theorem c10_versions_fresh_copy (s : FSSourceRef) (h : Heap) (xs : List Nat)
    (hvalid : s.versionsRef < h.arrays.length) :
    (s.versionsCall h).1 ≠ s.versionsRef ∧
    (s.versionsCall h).2.read (s.versionsCall h).1 = h.read s.versionsRef ∧
    ((s.versionsCall h).2.write (s.versionsCall h).1 xs).read s.versionsRef =
      h.read s.versionsRef ∧
    ((let h2 := (s.versionsCall h).2.write (s.versionsCall h).1 xs
      (s.versionsCall h2).2.read (s.versionsCall h2).1 = h.read s.versionsRef)) ∧
    ((let h2 := (s.versionsCall h).2.write (s.versionsCall h).1 xs
      s.listCall h2 = s.listCall h)) := by
  have hcall : s.versionsCall h =
      (h.arrays.length, { arrays := h.arrays ++ [h.read s.versionsRef] }) := rfl
  have hne : h.arrays.length ≠ s.versionsRef := by omega
  have hread1 : ({ arrays := h.arrays ++ [h.read s.versionsRef] } : Heap).read
      h.arrays.length = h.read s.versionsRef :=
    readArr_append_self h.arrays (h.read s.versionsRef)
  have hkeep : (({ arrays := h.arrays ++ [h.read s.versionsRef] } : Heap).write
      h.arrays.length xs).read s.versionsRef = h.read s.versionsRef := by
    show readArr ((h.arrays ++ [h.read s.versionsRef]).set h.arrays.length xs)
        s.versionsRef = readArr h.arrays s.versionsRef
    rw [readArr_set_ne _ _ _ _ hne]
    exact readArr_append_lt h.arrays _ s.versionsRef hvalid
  refine ⟨by rw [hcall]; exact hne, by rw [hcall]; exact hread1, ?_, ?_, ?_⟩
  · rw [hcall]
    exact hkeep
  · rw [hcall]
    simp only []
    have : (({ arrays := h.arrays ++ [h.read s.versionsRef] } : Heap).write
        h.arrays.length xs).read s.versionsRef = h.read s.versionsRef := hkeep
    show Heap.read _ _ = _
    rw [show ∀ hp : Heap, (s.versionsCall hp).2.read (s.versionsCall hp).1 =
          hp.read s.versionsRef from fun hp => readArr_append_self hp.arrays _]
    exact hkeep
  · rw [hcall]
    show (((({ arrays := h.arrays ++ [h.read s.versionsRef] } : Heap).write
        h.arrays.length xs).read s.versionsRef).filterMap s.migrations) =
      ((h.read s.versionsRef).filterMap s.migrations)
    rw [hkeep]

/-- Claim C10 (witness). -/
theorem c10_versions_fresh_copy_witness :
    (Fix.fsrc.versionsCall Fix.heap1).1 ≠ Fix.fsrc.versionsRef :=
  (c10_versions_fresh_copy Fix.fsrc Fix.heap1 [9] (by decide)).1

theorem verMax_init_le (rows : List AppliedMigration) :
    ∀ a, a ≤ verMax rows a := by
  induction rows with
  | nil => intro a; exact Nat.le_refl a
  | cons r rest ih =>
    intro a
    have h2 : a ≤ if a < r.version then r.version else a := by
      by_cases h : a < r.version <;> simp [h] <;> omega
    exact Nat.le_trans h2 (ih _)

theorem verMax_mem_le (rows : List AppliedMigration) :
    ∀ a r, r ∈ rows → r.version ≤ verMax rows a := by
  induction rows with
  | nil => intro a r hr; cases hr
  | cons x rest ih =>
    intro a r hr
    rcases List.mem_cons.mp hr with heq | hmem
    · subst heq
      have h1 : r.version ≤ if a < r.version then r.version else a := by
        by_cases h : a < r.version <;> simp [h] <;> omega
      exact Nat.le_trans h1 (verMax_init_le rest _)
    · exact ih _ r hmem

theorem verMax_eq_init_or_mem (rows : List AppliedMigration) :
    ∀ a, verMax rows a = a ∨ ∃ r ∈ rows, r.version = verMax rows a := by
  induction rows with
  | nil => intro a; exact Or.inl rfl
  | cons x rest ih =>
    intro a
    rcases ih (if a < x.version then x.version else a) with h | ⟨r, hr, hv⟩
    · by_cases hc : a < x.version
      · refine Or.inr ⟨x, List.mem_cons_self x rest, ?_⟩
        show x.version = verMax rest (if a < x.version then x.version else a)
        rw [h, if_pos hc]
      · left
        show verMax rest (if a < x.version then x.version else a) = a
        rw [h, if_neg hc]
    · exact Or.inr ⟨r, List.mem_cons_of_mem x hr, hv⟩

/-- Claim C8: with the history table absent, `Version` returns `(0, nil)`
and leaves the world untouched (no table creation); with the table present
and the probe and scan succeeding, it returns the maximum applied version,
again without touching the world. -/
theorem c8_version_read_only_probe :
    (∀ (m : Migrator) (env : Env) (w : World), w.tableExists = false →
      m.version env w = ((0, none), w)) ∧
    (∀ (m : Migrator) (env : Env) (w : World), w.tableExists = true →
      env.probeOk = true → env.scanErr = none →
      (m.version env w).2 = w ∧ (m.version env w).1.2 = none ∧
      (∀ r ∈ w.ledger, r.version ≤ (m.version env w).1.1) ∧
      ((m.version env w).1.1 = 0 ∨
        ∃ r ∈ w.ledger, r.version = (m.version env w).1.1)) := by
  constructor
  · intro m env w h
    simp [Migrator.version, Migrator.historyTableExists, h]
  · intro m env w h1 h2 h3
    have hv : m.version env w = ((verMax w.ledger 0, none), w) := by
      simp [Migrator.version, Migrator.historyTableExists, h1, h2,
        Migrator.getLatestVersion, Migrator.getAppliedMigrations, h3, verMax]
    rw [hv]
    refine ⟨rfl, rfl, fun r hr => verMax_mem_le w.ledger 0 r hr, ?_⟩
    rcases verMax_eq_init_or_mem w.ledger 0 with h | h
    · exact Or.inl h
    · exact Or.inr (by simpa using h)

/-- Claim C8 (witness). -/
theorem c8_version_read_only_probe_witness :
    (Fix.m2.version Fix.envOk Fix.wApplied12).2 = Fix.wApplied12 :=
  (c8_version_read_only_probe.2 Fix.m2 Fix.envOk Fix.wApplied12 rfl rfl rfl).1

theorem execStmtsLoop_none_iff (env : Env) (v : Nat) (d : Direction) :
    ∀ (l : List String) (k : Nat),
      execStmtsLoop env v d l k = none ↔ ∀ s ∈ l, env.exec s = none := by
  intro l
  induction l with
  | nil => intro k; simp [execStmtsLoop]
  | cons s rest ih =>
    intro k
    cases h : env.exec s with
    | none => simp [execStmtsLoop, h, ih]
    | some e =>
      simp only [execStmtsLoop, h]
      constructor
      · intro hco; cases hco
      · intro hall
        have hs := hall s (List.mem_cons_self s rest)
        rw [h] at hs
        cases hs

theorem execStmtsLoop_first_fail (env : Env) (v : Nat) (d : Direction)
    (e : String) :
    ∀ (l1 : List String) (s : String) (l2 : List String) (k : Nat),
      (∀ x ∈ l1, env.exec x = none) → env.exec s = some e →
      execStmtsLoop env v d (l1 ++ s :: l2) k =
        some (.migration v d (k + l1.length + 1) (.external e)) := by
  intro l1
  induction l1 with
  | nil =>
    intro s l2 k _ hs
    simp [execStmtsLoop, hs]
  | cons x xs ih =>
    intro s l2 k hall hs
    have hx : env.exec x = none := hall x (List.mem_cons_self x xs)
    have hrec := ih s l2 (k + 1) (fun y hy => hall y (List.mem_cons_of_mem x hy)) hs
    have harith : k + 1 + xs.length + 1 = k + (x :: xs).length + 1 := by
      simp [List.length_cons]
      omega
    rw [List.cons_append]
    calc execStmtsLoop env v d (x :: (xs ++ s :: l2)) k
        = execStmtsLoop env v d (xs ++ s :: l2) (k + 1) := by
          simp [execStmtsLoop, hx]
      _ = some (.migration v d (k + 1 + xs.length + 1) (.external e)) := hrec
      _ = some (.migration v d (k + (x :: xs).length + 1) (.external e)) := by
          rw [harith]

theorem executeStatements_none_iff (m : Migrator) (env : Env) (v : Nat)
    (d : Direction) (c : String) :
    m.executeStatements env v d c = none ↔
      ((∀ s ∈ parseStatements c, env.exec s = none) ∧
       (m.waitForSchemaAgreement = true → env.agree = none)) := by
  unfold Migrator.executeStatements
  cases hl : execStmtsLoop env v d (parseStatements c) 0 with
  | some e =>
    simp only []
    constructor
    · intro hco; cases hco
    · rintro ⟨hall, _⟩
      have hn := (execStmtsLoop_none_iff env v d (parseStatements c) 0).mpr hall
      rw [hl] at hn
      cases hn
  | none =>
    have hall := (execStmtsLoop_none_iff env v d (parseStatements c) 0).mp hl
    cases hw : m.waitForSchemaAgreement with
    | false =>
      simp [hw]
      exact hall
    | true =>
      cases ha : env.agree with
      | none =>
        simp [hw, ha]
        exact hall
      | some e => simp [hw, ha]

theorem hasVersion_iff_exists (rows : List AppliedMigration) (u : Nat) :
    hasVersion rows u = true ↔ ∃ r ∈ rows, r.version = u := by
  simp [hasVersion, List.any_eq_true]

theorem hasVersion_upsert_iff (rows : List AppliedMigration)
    (row : AppliedMigration) (u : Nat) :
    hasVersion (rows.filter (fun r => r.version != row.version) ++ [row]) u = true ↔
      (hasVersion rows u = true ∨ u = row.version) := by
  rw [hasVersion_iff_exists, hasVersion_iff_exists]
  constructor
  · rintro ⟨r, hr, hv⟩
    rcases List.mem_append.mp hr with hmem | hmem
    · exact Or.inl ⟨r, (List.mem_filter.mp hmem).1, hv⟩
    · have : r = row := by simpa using hmem
      subst this
      exact Or.inr hv.symm
  · rintro (⟨r, hr, hv⟩ | hv)
    · by_cases hc : u = row.version
      · exact ⟨row, List.mem_append_right _ (by simp), hc.symm⟩
      · refine ⟨r, List.mem_append_left _ (List.mem_filter.mpr ⟨hr, ?_⟩), hv⟩
        simp only [bne_iff_ne, ne_eq]
        rw [hv]
        exact hc
    · exact ⟨row, List.mem_append_right _ (by simp), hv.symm⟩

theorem hasVersion_filterNe_iff (rows : List AppliedMigration) (v u : Nat) :
    hasVersion (rows.filter (fun r => r.version != v)) u = true ↔
      (hasVersion rows u = true ∧ u ≠ v) := by
  rw [hasVersion_iff_exists, hasVersion_iff_exists]
  constructor
  · rintro ⟨r, hr, hv⟩
    obtain ⟨hmem, hne⟩ := List.mem_filter.mp hr
    refine ⟨⟨r, hmem, hv⟩, ?_⟩
    rw [← hv]
    simpa using hne
  · rintro ⟨⟨r, hr, hv⟩, hne⟩
    refine ⟨r, List.mem_filter.mpr ⟨hr, ?_⟩, hv⟩
    simp only [bne_iff_ne, ne_eq]
    rw [hv]
    exact hne

/-- Claim C2: (a) when statement `i+1` of the up migration is the first to
fail, `applyUp` returns exactly `MigrationError{version, up, i+1, err}`
and performs no ledger write — the rows and the count of attempted ledger
inserts are untouched; (b) the ledger insert is attempted only when every
statement and the optional schema-agreement wait succeeded. -/
theorem c2_applyUp_statement_failure :
    (∀ (m : Migrator) (env : Env) (pair : MigrationPair) (w : World)
       (mig : Migration) (content : String) (l1 : List String) (s : String)
       (l2 : List String) (e : String),
      pair.up = some mig →
      m.readMigrationContent pair.version "up" = .ok content →
      parseStatements content = l1 ++ s :: l2 →
      (∀ x ∈ l1, env.exec x = none) → env.exec s = some e →
      m.applyUp env pair w =
        (some (.migration pair.version "up" (l1.length + 1) (.external e)),
         { w with trace := w.trace ++ [(pair.version, "up")] })) ∧
    (∀ (m : Migrator) (env : Env) (pair : MigrationPair) (w : World),
      w.recordAttempts < (m.applyUp env pair w).2.recordAttempts →
      ∃ content, m.readMigrationContent pair.version "up" = .ok content ∧
        (∀ x ∈ parseStatements content, env.exec x = none) ∧
        (m.waitForSchemaAgreement = true → env.agree = none)) := by
  constructor
  · intro m env pair w mig content l1 s l2 e hup hread hsplit hpre hfail
    have hexecs : m.executeStatements env pair.version "up" content =
        some (.migration pair.version "up" (l1.length + 1) (.external e)) := by
      unfold Migrator.executeStatements
      rw [hsplit, execStmtsLoop_first_fail env pair.version "up" e l1 s l2 0 hpre hfail]
      simp
    unfold Migrator.applyUp
    simp only [hup, hread, hexecs]
  · intro m env pair w h
    unfold Migrator.applyUp at h
    cases hup : pair.up with
    | none => rw [hup] at h; simp at h
    | some mig =>
      rw [hup] at h
      cases hread : m.readMigrationContent pair.version "up" with
      | error e => rw [hread] at h; simp at h
      | ok content =>
        rw [hread] at h
        simp only [] at h
        cases hex : m.executeStatements env pair.version "up" content with
        | some e => rw [hex] at h; simp at h
        | none =>
          have hiff := (executeStatements_none_iff m env pair.version "up" content).mp hex
          exact ⟨content, rfl, hiff.1, hiff.2⟩

/-- Claim C2 (witness): over `src2` with a cluster failing on
`CREATE INDEX i`, applying version 2 up fails at statement 1 with no
ledger write. -/
theorem c2_applyUp_statement_failure_witness :
    Fix.m2.applyUp Fix.envFailIdx (Fix.pair 2 (some "2_a.up.cql") (some "2_a.down.cql"))
        Fix.wEmpty =
      (some (.migration 2 "up" 1 (.external "boom")),
       { Fix.wEmpty with trace := Fix.wEmpty.trace ++ [(2, "up")] }) :=
  c2_applyUp_statement_failure.1 Fix.m2 Fix.envFailIdx
    (Fix.pair 2 (some "2_a.up.cql") (some "2_a.down.cql")) Fix.wEmpty
    (Fix.mig 2 "up" "2_a.up.cql") "CREATE INDEX i;" [] "CREATE INDEX i" [] "boom"
    (by decide) rfl (by decide) (by intro x hx; cases hx) (by decide)

theorem ensure_none_eq (m : Migrator) (env : Env) (w : World)
    (hens : env.ensureErr = none)
    (hagr : m.waitForSchemaAgreement = true → env.agree = none) :
    m.ensureHistoryTable env w = (none, { w with tableExists := true }) := by
  unfold Migrator.ensureHistoryTable
  simp only [hens]
  cases hw : m.waitForSchemaAgreement with
  | true => simp [hagr hw]
  | false => simp

theorem ensure_none_inv (m : Migrator) (env : Env) (w wE : World)
    (h : m.ensureHistoryTable env w = (none, wE)) :
    wE = { w with tableExists := true } ∧ env.ensureErr = none ∧
      (m.waitForSchemaAgreement = true → env.agree = none) := by
  unfold Migrator.ensureHistoryTable at h
  cases hens : env.ensureErr with
  | some e => simp [hens] at h
  | none =>
    simp only [hens] at h
    cases hw : m.waitForSchemaAgreement with
    | false =>
      rw [hw] at h
      simp at h
      exact ⟨h.symm, rfl, fun hco => absurd hco (by simp [hw])⟩
    | true =>
      rw [hw] at h
      cases hagr : env.agree with
      | some e => rw [hagr] at h; simp at h
      | none =>
        rw [hagr] at h
        simp at h
        exact ⟨h.symm, rfl, fun _ => rfl⟩

theorem ensure_err_shape (m : Migrator) (env : Env) (w wE : World)
    (e : GoError) (h : m.ensureHistoryTable env w = (some e, wE)) :
    ∃ msg e2, e = .wrapped msg e2 := by
  unfold Migrator.ensureHistoryTable at h
  cases hens : env.ensureErr with
  | some e0 =>
    simp only [hens] at h
    simp at h
    exact ⟨_, _, h.1.symm⟩
  | none =>
    simp only [hens] at h
    cases hw : m.waitForSchemaAgreement with
    | false => rw [hw] at h; simp at h
    | true =>
      rw [hw] at h
      cases hagr : env.agree with
      | none => rw [hagr] at h; simp at h
      | some e0 =>
        rw [hagr] at h
        simp at h
        exact ⟨_, _, h.1.symm⟩

theorem nnc_of_eq {e f : GoError} (h : f = e) (hf : f ≠ .noChange) :
    e ≠ .noChange := h ▸ hf

theorem hasVersion_record_iff (rows : List AppliedMigration) (v : Nat)
    (ds cks : String) (ap ms : Nat) (u : Nat) :
    hasVersion (rows.filter (fun r => r.version != v) ++
      [{ version := v, description := ds, checksum := cks, appliedAt := ap,
         executionMs := ms }]) u = true ↔
      (hasVersion rows u = true ∨ u = v) := by
  simpa using hasVersion_upsert_iff rows
    { version := v, description := ds, checksum := cks, appliedAt := ap,
      executionMs := ms } u

theorem read_err_nnc (m : Migrator) (v : Nat) (d : Direction) (e : GoError)
    (h : m.readMigrationContent v d = .error e) : e ≠ .noChange := by
  unfold Migrator.readMigrationContent at h
  by_cases hd : d = "up"
  · rw [if_pos hd] at h
    unfold FSSource.readUp at h
    cases hg : m.source.get v with
    | none =>
      simp only [hg] at h
      simp at h
      exact nnc_of_eq h (by nofun)
    | some pair =>
      simp only [hg] at h
      cases hu : pair.up with
      | none =>
        simp only [hu] at h
        simp at h
        exact nnc_of_eq h (by nofun)
      | some mig =>
        simp only [hu] at h
        cases hf : m.source.fsys mig.raw with
        | none =>
          simp only [hf] at h
          simp at h
          exact nnc_of_eq h (by nofun)
        | some c => simp [hf] at h
  · rw [if_neg hd] at h
    unfold FSSource.readDown at h
    cases hg : m.source.get v with
    | none =>
      simp only [hg] at h
      simp at h
      exact nnc_of_eq h (by nofun)
    | some pair =>
      simp only [hg] at h
      cases hu : pair.down with
      | none =>
        simp only [hu] at h
        simp at h
        exact nnc_of_eq h (by nofun)
      | some mig =>
        simp only [hu] at h
        cases hf : m.source.fsys mig.raw with
        | none =>
          simp only [hf] at h
          simp at h
          exact nnc_of_eq h (by nofun)
        | some c => simp [hf] at h

theorem execStmtsLoop_some_shape (env : Env) (v : Nat) (d : Direction)
    (e : GoError) :
    ∀ (l : List String) (k : Nat), execStmtsLoop env v d l k = some e →
      ∃ i e2, e = .migration v d i (.external e2) := by
  intro l
  induction l with
  | nil => intro k h; cases h
  | cons s rest ih =>
    intro k h
    unfold execStmtsLoop at h
    cases hs : env.exec s with
    | some e0 =>
      simp only [hs] at h
      simp at h
      exact ⟨_, _, h.symm⟩
    | none =>
      simp only [hs] at h
      exact ih (k + 1) h

theorem exec_err_nnc (m : Migrator) (env : Env) (v : Nat) (d : Direction)
    (c : String) (e : GoError)
    (h : m.executeStatements env v d c = some e) : e ≠ .noChange := by
  unfold Migrator.executeStatements at h
  cases hl : execStmtsLoop env v d (parseStatements c) 0 with
  | some e0 =>
    simp only [hl] at h
    simp at h
    obtain ⟨i, e2, hsh⟩ := execStmtsLoop_some_shape env v d e0 (parseStatements c) 0 hl
    exact nnc_of_eq h (hsh ▸ (by nofun))
  | none =>
    simp only [hl] at h
    cases hw : m.waitForSchemaAgreement with
    | false => rw [hw] at h; simp at h
    | true =>
      rw [hw] at h
      cases hagr : env.agree with
      | none => rw [hagr] at h; simp at h
      | some e0 =>
        rw [hagr] at h
        simp at h
        exact nnc_of_eq h (by nofun)

theorem applyUp_err_nnc (m : Migrator) (env : Env) (pair : MigrationPair)
    (w w1 : World) (e : GoError)
    (h : m.applyUp env pair w = (some e, w1)) : e ≠ .noChange := by
  unfold Migrator.applyUp at h
  cases hup : pair.up with
  | none =>
    simp only [hup] at h
    simp at h
    exact nnc_of_eq h.1 (by nofun)
  | some mig =>
    simp only [hup] at h
    cases hread : m.readMigrationContent pair.version "up" with
    | error e0 =>
      simp only [hread] at h
      simp at h
      exact nnc_of_eq h.1 (read_err_nnc m pair.version "up" e0 hread)
    | ok content =>
      simp only [hread] at h
      cases hex : m.executeStatements env pair.version "up" content with
      | some e0 =>
        simp only [hex] at h
        simp at h
        exact nnc_of_eq h.1 (exec_err_nnc m env pair.version "up" content e0 hex)
      | none =>
        simp only [hex] at h
        unfold Migrator.recordMigration at h
        cases hrec : env.recordErr pair.version with
        | some e0 =>
          simp only [hrec] at h
          simp at h
          exact nnc_of_eq h.1 (by nofun)
        | none => simp [hrec] at h

theorem applyUp_none_char (m : Migrator) (env : Env) (pair : MigrationPair)
    (w w1 : World) (h : m.applyUp env pair w = (none, w1)) :
    w1.tableExists = w.tableExists ∧
    hasVersion w1.ledger pair.version = true ∧
    (∀ u, hasVersion w.ledger u = true → hasVersion w1.ledger u = true) := by
  unfold Migrator.applyUp at h
  cases hup : pair.up with
  | none => simp [hup] at h
  | some mig =>
    simp only [hup] at h
    cases hread : m.readMigrationContent pair.version "up" with
    | error e => simp [hread] at h
    | ok content =>
      simp only [hread] at h
      cases hex : m.executeStatements env pair.version "up" content with
      | some e => simp [hex] at h
      | none =>
        simp only [hex] at h
        unfold Migrator.recordMigration at h
        cases hrec : env.recordErr pair.version with
        | some e => simp [hrec] at h
        | none =>
          simp only [hrec] at h
          simp only [Prod.mk.injEq] at h
          rw [← h.2]
          refine ⟨rfl, ?_, ?_⟩
          · exact (hasVersion_record_iff w.ledger pair.version pair.description
              (checksumHex content) env.nowMs env.elapsedMs pair.version).mpr
              (Or.inr rfl)
          · intro u hu
            exact (hasVersion_record_iff w.ledger pair.version pair.description
              (checksumHex content) env.nowMs env.elapsedMs u).mpr (Or.inl hu)

theorem applyUp_ok_eq (m : Migrator) (env : Env) (pair : MigrationPair)
    (w : World) (henv : EnvOk env) (happ : upApplicableB m pair = true) :
    m.applyUp env pair w =
      (none,
       { w with trace := w.trace ++ [(pair.version, "up")],
                recordAttempts := w.recordAttempts + 1,
                ledger := w.ledger.filter (fun r => r.version != pair.version) ++
                  [recordedRow env pair (upContent m pair)] }) := by
  obtain ⟨hens, hagr, hscan, hprobe, hexec, hrec, hrem⟩ := henv
  unfold upApplicableB at happ
  cases hup : pair.up with
  | none => simp [hup] at happ
  | some mig =>
    simp only [hup] at happ
    cases hread : m.readMigrationContent pair.version "up" with
    | error e => simp [hread] at happ
    | ok content =>
      have hexecs : m.executeStatements env pair.version "up" content = none :=
        (executeStatements_none_iff m env pair.version "up" content).mpr
          ⟨fun s _ => hexec s, fun _ => hagr⟩
      have hcontent : upContent m pair = content := by
        unfold upContent
        rw [hread]
      unfold Migrator.applyUp
      simp only [hup, hread, hexecs]
      unfold Migrator.recordMigration
      simp only [hrec pair.version]
      rw [hcontent]
      rfl

theorem applyDown_err_nnc (m : Migrator) (env : Env) (v : Nat)
    (w w1 : World) (e : GoError)
    (h : m.applyDown env v w = (some e, w1)) : e ≠ .noChange := by
  unfold Migrator.applyDown at h
  cases hf : (m.source.list).find? (fun p => p.version == v) with
  | none =>
    simp only [hf] at h
    simp at h
    exact nnc_of_eq h.1 (by nofun)
  | some pair =>
    simp only [hf] at h
    cases hd : pair.down with
    | none =>
      simp only [hd] at h
      simp at h
      exact nnc_of_eq h.1 (by nofun)
    | some mig =>
      simp only [hd] at h
      cases hread : m.readMigrationContent v "down" with
      | error e0 =>
        simp only [hread] at h
        simp at h
        exact nnc_of_eq h.1 (read_err_nnc m v "down" e0 hread)
      | ok content =>
        simp only [hread] at h
        cases hex : m.executeStatements env v "down" content with
        | some e0 =>
          simp only [hex] at h
          simp at h
          exact nnc_of_eq h.1 (exec_err_nnc m env v "down" content e0 hex)
        | none =>
          simp only [hex] at h
          unfold Migrator.removeMigration at h
          cases hrem : env.removeErr v with
          | some e0 =>
            simp only [hrem] at h
            simp at h
            exact nnc_of_eq h.1 (by nofun)
          | none => simp [hrem] at h

theorem applyDown_ok_eq (m : Migrator) (env : Env) (v : Nat) (w : World)
    (henv : EnvOk env) (happ : downApplicableB m v = true) :
    m.applyDown env v w =
      (none, { w with trace := w.trace ++ [(v, "down")],
                      ledger := w.ledger.filter (fun r => r.version != v) }) := by
  obtain ⟨hens, hagr, hscan, hprobe, hexec, hrec, hrem⟩ := henv
  unfold downApplicableB at happ
  cases hf : (m.source.list).find? (fun p => p.version == v) with
  | none => simp [hf] at happ
  | some pair =>
    simp only [hf] at happ
    cases hd : pair.down with
    | none => simp [hd] at happ
    | some mig =>
      cases hread : m.readMigrationContent v "down" with
      | error e => simp [hd, hread] at happ
      | ok content =>
        have hexecs : m.executeStatements env v "down" content = none :=
          (executeStatements_none_iff m env v "down" content).mpr
            ⟨fun s _ => hexec s, fun _ => hagr⟩
        unfold Migrator.applyDown
        simp only [hf, hd, hread, hexecs]
        unfold Migrator.removeMigration
        simp only [hrem v]

theorem hasVersion_upsert_recordedRow_iff (rows : List AppliedMigration)
    (env : Env) (pair : MigrationPair) (content : String) (u : Nat) :
    hasVersion (rows.filter (fun r => r.version != pair.version) ++
      [recordedRow env pair content]) u = true ↔
      (hasVersion rows u = true ∨ u = pair.version) := by
  simpa [recordedRow] using
    hasVersion_upsert_iff rows (recordedRow env pair content) u

theorem applySeqUp_ok (m : Migrator) (env : Env) (henv : EnvOk env) :
    ∀ (ps : List MigrationPair) (w : World),
      (∀ p ∈ ps, upApplicableB m p = true) →
      (applySeqUp m env ps w).1 = none ∧
      (applySeqUp m env ps w).2.trace =
        w.trace ++ ps.map (fun p => (p.version, ("up" : Direction))) ∧
      (applySeqUp m env ps w).2.tableExists = w.tableExists ∧
      (∀ u, hasVersion (applySeqUp m env ps w).2.ledger u = true ↔
        (hasVersion w.ledger u = true ∨ u ∈ ps.map (fun p => p.version))) := by
  intro ps
  induction ps with
  | nil =>
    intro w _
    simp [applySeqUp]
  | cons p rest ih =>
    intro w hall
    have hp := hall p (List.mem_cons_self p rest)
    have heq := applyUp_ok_eq m env p w henv hp
    have hstep : applySeqUp m env (p :: rest) w =
        applySeqUp m env rest
          { w with trace := w.trace ++ [(p.version, "up")],
                   recordAttempts := w.recordAttempts + 1,
                   ledger := w.ledger.filter (fun r => r.version != p.version) ++
                     [recordedRow env p (upContent m p)] } := by
      simp only [applySeqUp, heq]
    rw [hstep]
    obtain ⟨h1, h2, h3, h4⟩ :=
      ih _ (fun q hq => hall q (List.mem_cons_of_mem p hq))
    refine ⟨h1, ?_, h3, ?_⟩
    · rw [h2]
      simp
    · intro u
      rw [h4 u]
      constructor
      · rintro (hl | hr)
        · rcases (hasVersion_upsert_recordedRow_iff w.ledger env p
            (upContent m p) u).mp hl with hx | hx
          · exact Or.inl hx
          · refine Or.inr ?_
            simp only [List.map_cons, List.mem_cons]
            exact Or.inl hx
        · refine Or.inr ?_
          simp only [List.map_cons, List.mem_cons]
          exact Or.inr hr
      · rintro (hl | hr)
        · exact Or.inl ((hasVersion_upsert_recordedRow_iff w.ledger env p
            (upContent m p) u).mpr (Or.inl hl))
        · simp only [List.map_cons, List.mem_cons] at hr
          rcases hr with hx | hx
          · exact Or.inl ((hasVersion_upsert_recordedRow_iff w.ledger env p
              (upContent m p) u).mpr (Or.inr hx))
          · exact Or.inr hx

theorem applySeqDown_ok (m : Migrator) (env : Env) (henv : EnvOk env) :
    ∀ (vs : List Nat) (w : World),
      (∀ v ∈ vs, downApplicableB m v = true) →
      (applySeqDown m env vs w).1 = none ∧
      (applySeqDown m env vs w).2.trace =
        w.trace ++ vs.map (fun v => (v, ("down" : Direction))) ∧
      (applySeqDown m env vs w).2.tableExists = w.tableExists ∧
      (∀ u, hasVersion (applySeqDown m env vs w).2.ledger u = true ↔
        (hasVersion w.ledger u = true ∧ u ∉ vs)) := by
  intro vs
  induction vs with
  | nil =>
    intro w _
    simp [applySeqDown]
  | cons v rest ih =>
    intro w hall
    have hv := hall v (List.mem_cons_self v rest)
    have heq := applyDown_ok_eq m env v w henv hv
    have hstep : applySeqDown m env (v :: rest) w =
        applySeqDown m env rest
          { w with trace := w.trace ++ [(v, "down")],
                   ledger := w.ledger.filter (fun r => r.version != v) } := by
      simp only [applySeqDown, heq]
    rw [hstep]
    obtain ⟨h1, h2, h3, h4⟩ := ih _ (fun q hq => hall q (List.mem_cons_of_mem v hq))
    refine ⟨h1, ?_, h3, ?_⟩
    · rw [h2]
      simp
    · intro u
      rw [h4 u]
      constructor
      · rintro ⟨hva, hnm⟩
        obtain ⟨hvw, hne⟩ := (hasVersion_filterNe_iff w.ledger v u).mp hva
        refine ⟨hvw, ?_⟩
        simp only [List.mem_cons]
        tauto
      · rintro ⟨hvw, hnm⟩
        simp only [List.mem_cons] at hnm
        push_neg at hnm
        exact ⟨(hasVersion_filterNe_iff w.ledger v u).mpr ⟨hvw, hnm.1⟩, hnm.2⟩

theorem upLoop_err_nnc (m : Migrator) (env : Env) :
    ∀ (ps : List MigrationPair) (w : World) (acc k : Nat) (e : GoError)
      (w1 : World),
      upLoop m env ps w acc = (k, some e, w1) → e ≠ .noChange := by
  intro ps
  induction ps with
  | nil =>
    intro w acc k e w1 h
    unfold upLoop at h
    simp at h
  | cons p rest ih =>
    intro w acc k e w1 h
    unfold upLoop at h
    cases happ : m.applyUp env p w with
    | mk err w2 =>
      simp only [happ] at h
      cases err with
      | some e0 =>
        simp at h
        exact nnc_of_eq h.2.1 (applyUp_err_nnc m env p w w2 e0 happ)
      | none => exact ih w2 (acc + 1) k e w1 h

theorem upLoop_none_facts (m : Migrator) (env : Env) :
    ∀ (ps : List MigrationPair) (w : World) (acc k : Nat) (w1 : World),
      upLoop m env ps w acc = (k, none, w1) →
      w1.tableExists = w.tableExists ∧
      (∀ u, hasVersion w.ledger u = true → hasVersion w1.ledger u = true) ∧
      (∀ p ∈ ps, hasVersion w1.ledger p.version = true) := by
  intro ps
  induction ps with
  | nil =>
    intro w acc k w1 h
    unfold upLoop at h
    simp only [Prod.mk.injEq] at h
    obtain ⟨-, -, hw⟩ := h
    subst hw
    exact ⟨rfl, fun u hu => hu, fun p hp => absurd hp (List.not_mem_nil p)⟩
  | cons p rest ih =>
    intro w acc k w1 h
    unfold upLoop at h
    cases happ : m.applyUp env p w with
    | mk err w2 =>
      simp only [happ] at h
      cases err with
      | some e => simp at h
      | none =>
        obtain ⟨ht2, hvp, hpres2⟩ := applyUp_none_char m env p w w2 happ
        obtain ⟨ht, hpres, hall⟩ := ih w2 (acc + 1) k w1 h
        refine ⟨ht.trans ht2, fun u hu => hpres u (hpres2 u hu), ?_⟩
        intro q hq
        rcases List.mem_cons.mp hq with rfl | hq2
        · exact hpres q.version hvp
        · exact hall q hq2

theorem pending_ok_eq (m : Migrator) (env : Env) (w : World)
    (hscan : env.scanErr = none) :
    m.pending env w = .ok (pendingOf m w) := by
  unfold Migrator.pending Migrator.getAppliedMigrations pendingOf
  simp [hscan]

theorem up_eq_branch (m : Migrator) (env : Env) (w wE : World)
    (PL : List MigrationPair)
    (hE : m.ensureHistoryTable env w = (none, wE))
    (hP : m.pending env wE = .ok PL) :
    m.up env w = if PL.length = 0 then (0, none, wE)
      else upLoop m env PL wE 0 := by
  unfold Migrator.up
  simp only [hE, hP]

theorem up_fixed (m : Migrator) (env : Env) (w1 : World)
    (hens : env.ensureErr = none)
    (hagr : m.waitForSchemaAgreement = true → env.agree = none)
    (hscan : env.scanErr = none)
    (htable : w1.tableExists = true)
    (hpend : pendingOf m w1 = []) : m.up env w1 = (0, none, w1) := by
  have hid : ({ w1 with tableExists := true } : World) = w1 := by
    cases w1 with
    | mk a b c d =>
      simp at htable
      simp [htable]
  have hE : m.ensureHistoryTable env w1 = (none, w1) :=
    (ensure_none_eq m env w1 hens hagr).trans (by rw [hid])
  have hP : m.pending env w1 = .ok [] := by
    rw [pending_ok_eq m env w1 hscan, hpend]
  rw [up_eq_branch m env w1 w1 [] hE hP]
  simp

/-- Claim C4: with no pending migrations, `Up` returns `(0, nil)` (after
ensuring the history table); a second `Up` right after any successful `Up`
returns `(0, nil)` with the world unchanged; and `Up` never returns
`ErrNoChange` — every error it can return is a `MigrationError`, a
`SourceError` or a wrapped session error. -/
theorem c4_up_empty_and_idempotent :
    (∀ (m : Migrator) (env : Env) (w : World),
      env.ensureErr = none →
      (m.waitForSchemaAgreement = true → env.agree = none) →
      env.scanErr = none → pendingOf m w = [] →
      m.up env w = (0, none, { w with tableExists := true })) ∧
    (∀ (m : Migrator) (env : Env) (w w1 : World) (k : Nat),
      m.up env w = (k, none, w1) → m.up env w1 = (0, none, w1)) ∧
    (∀ (m : Migrator) (env : Env) (w : World),
      (m.up env w).2.1 ≠ some GoError.noChange) := by
  refine ⟨?_, ?_, ?_⟩
  · intro m env w hens hagr hscan hpend
    have hE := ensure_none_eq m env w hens hagr
    have hP : m.pending env ({ w with tableExists := true } : World) = .ok [] := by
      rw [pending_ok_eq m env ({ w with tableExists := true } : World) hscan]
      rw [show pendingOf m ({ w with tableExists := true } : World) =
        pendingOf m w from rfl]
      rw [hpend]
    rw [up_eq_branch m env w ({ w with tableExists := true } : World) [] hE hP]
    simp
  · intro m env w w1 k h
    cases hE : m.ensureHistoryTable env w with
    | mk err wE =>
      cases err with
      | some e =>
        unfold Migrator.up at h
        simp [hE] at h
      | none =>
        obtain ⟨hwE, hens, hagr⟩ := ensure_none_inv m env w wE hE
        cases hscan : env.scanErr with
        | some e =>
          unfold Migrator.up at h
          simp only [hE] at h
          unfold Migrator.pending Migrator.getAppliedMigrations at h
          simp [hscan] at h
        | none =>
          rw [up_eq_branch m env w wE (pendingOf m wE) hE
            (pending_ok_eq m env wE hscan)] at h
          by_cases hlen : (pendingOf m wE).length = 0
          · rw [if_pos hlen] at h
            simp only [Prod.mk.injEq] at h
            obtain ⟨-, -, hw1⟩ := h
            subst hw1
            apply up_fixed m env wE hens hagr hscan
            · rw [hwE]
            · exact List.length_eq_zero.mp hlen
          · rw [if_neg hlen] at h
            obtain ⟨ht, hpres, hall⟩ :=
              upLoop_none_facts m env (pendingOf m wE) wE 0 k w1 h
            apply up_fixed m env w1 hens hagr hscan
            · rw [ht, hwE]
            · unfold pendingOf
              rw [List.eq_nil_iff_forall_not_mem]
              intro p hp
              obtain ⟨hmem, hcond⟩ := List.mem_filter.mp hp
              by_cases hv : hasVersion w1.ledger p.version = true
              · rw [hv] at hcond
                simp at hcond
              · by_cases hv0 : hasVersion wE.ledger p.version = true
                · exact hv (hpres _ hv0)
                · have hmemP : p ∈ pendingOf m wE := by
                    unfold pendingOf
                    rw [List.mem_filter]
                    refine ⟨hmem, ?_⟩
                    simp only [Bool.not_eq_true] at hv0
                    simp [hv0]
                  exact hv (hall p hmemP)
  · intro m env w
    unfold Migrator.up
    cases hE : m.ensureHistoryTable env w with
    | mk err wE =>
      cases err with
      | some e =>
        obtain ⟨msg, e2, hsh⟩ := ensure_err_shape m env w wE e hE
        simp [hsh]
      | none =>
        cases hscan : env.scanErr with
        | some e0 =>
          unfold Migrator.pending Migrator.getAppliedMigrations
          simp [hscan]
        | none =>
          simp only [pending_ok_eq m env wE hscan]
          by_cases hlen : (pendingOf m wE).length = 0
          · simp [hlen]
          · rw [if_neg hlen]
            cases hloop : upLoop m env (pendingOf m wE) wE 0 with
            | mk kk rest =>
              cases rest with
              | mk err2 w2 =>
                simp only [hloop]
                cases err2 with
                | none => simp
                | some e2 =>
                  have hnnc :=
                    upLoop_err_nnc m env (pendingOf m wE) wE 0 kk e2 w2 hloop
                  simpa using hnnc

/-- Claim C4 (witness). -/
theorem c4_up_empty_and_idempotent_witness :
    Fix.m2.up Fix.envOk Fix.wApplied12 =
      (0, none, { Fix.wApplied12 with tableExists := true }) :=
  c4_up_empty_and_idempotent.1 Fix.m2 Fix.envOk Fix.wApplied12 rfl
    (fun _ => rfl) rfl (by decide)

theorem insertDesc_perm (r : AppliedMigration) :
    ∀ l : List AppliedMigration, (insertDesc r l).Perm (r :: l) := by
  intro l
  induction l with
  | nil => exact List.Perm.refl _
  | cons x xs ih =>
    unfold insertDesc
    by_cases h : x.version < r.version
    · rw [if_pos h]
    · rw [if_neg h]
      exact (ih.cons x).trans (List.Perm.swap r x xs)

theorem sortDesc_perm : ∀ l : List AppliedMigration, (sortDesc l).Perm l := by
  intro l
  induction l with
  | nil => exact List.Perm.refl _
  | cons x xs ih =>
    unfold sortDesc
    simp only [List.foldr_cons]
    exact (insertDesc_perm x _).trans (ih.cons x)

theorem insertDesc_sorted (r : AppliedMigration) :
    ∀ l : List AppliedMigration,
      l.Pairwise (fun a b => b.version ≤ a.version) →
      (insertDesc r l).Pairwise (fun a b => b.version ≤ a.version) := by
  intro l
  induction l with
  | nil =>
    intro _
    simp [insertDesc]
  | cons x xs ih =>
    intro h
    obtain ⟨hhead, htail⟩ := List.pairwise_cons.mp h
    unfold insertDesc
    by_cases hc : x.version < r.version
    · rw [if_pos hc]
      refine List.Pairwise.cons ?_ h
      intro y hy
      rcases List.mem_cons.mp hy with rfl | hy2
      · omega
      · have := hhead y hy2
        omega
    · rw [if_neg hc]
      refine List.Pairwise.cons ?_ (ih htail)
      intro y hy
      rw [(insertDesc_perm r xs).mem_iff] at hy
      rcases List.mem_cons.mp hy with rfl | hy2
      · omega
      · exact hhead y hy2

theorem sortDesc_sorted (l : List AppliedMigration) :
    (sortDesc l).Pairwise (fun a b => b.version ≤ a.version) := by
  induction l with
  | nil => simp [sortDesc]
  | cons x xs ih =>
    unfold sortDesc
    simp only [List.foldr_cons]
    exact insertDesc_sorted x _ ih

theorem takeWhile_eq_filter_desc (target : Nat) :
    ∀ l : List AppliedMigration,
      l.Pairwise (fun a b => b.version ≤ a.version) →
      l.takeWhile (fun r => decide (target < r.version)) =
        l.filter (fun r => decide (target < r.version)) := by
  intro l
  induction l with
  | nil => intro _; rfl
  | cons x xs ih =>
    intro h
    obtain ⟨hhead, htail⟩ := List.pairwise_cons.mp h
    by_cases hc : target < x.version
    · have hpx : decide (target < x.version) = true := by simp [hc]
      simp only [List.takeWhile_cons, List.filter_cons, hpx, if_true]
      rw [ih htail]
    · have hpx : decide (target < x.version) = false := by
        simp
        omega
      simp only [List.takeWhile_cons, List.filter_cons, hpx]
      simp only [Bool.false_eq_true, if_false]
      rw [eq_comm, List.filter_eq_nil_iff]
      intro a ha
      have := hhead a ha
      simp
      omega

theorem downToLoop_all (m : Migrator) (env : Env) (henv : EnvOk env)
    (target : Nat) :
    ∀ (ams : List AppliedMigration) (w : World) (acc : Nat),
      (∀ r ∈ ams, target < r.version → downApplicableB m r.version = true) →
      (downToLoop m env ams target w acc).1 =
        acc + (ams.takeWhile (fun r => decide (target < r.version))).length ∧
      (downToLoop m env ams target w acc).2.1 = none ∧
      (downToLoop m env ams target w acc).2.2.trace = w.trace ++
        (ams.takeWhile (fun r => decide (target < r.version))).map
          (fun r => (r.version, ("down" : Direction))) ∧
      (∀ u, hasVersion (downToLoop m env ams target w acc).2.2.ledger u = true ↔
        (hasVersion w.ledger u = true ∧
          u ∉ (ams.takeWhile (fun r => decide (target < r.version))).map
            (fun r => r.version))) := by
  intro ams
  induction ams with
  | nil =>
    intro w acc _
    simp [downToLoop]
  | cons am rest ih =>
    intro w acc hall
    by_cases hc : am.version ≤ target
    · have hpred : decide (target < am.version) = false := by
        simp
        omega
      have hstop : downToLoop m env (am :: rest) target w acc =
          (acc, none, w) := by
        unfold downToLoop
        rw [if_pos hc]
      rw [hstop]
      simp [List.takeWhile_cons, hpred]
    · have hlt : target < am.version := by omega
      have hpred : decide (target < am.version) = true := by simp [hlt]
      have happ := applyDown_ok_eq m env am.version w henv
        (hall am (List.mem_cons_self am rest) hlt)
      have hstep : downToLoop m env (am :: rest) target w acc =
          downToLoop m env rest target
            { w with trace := w.trace ++ [(am.version, "down")],
                     ledger := w.ledger.filter (fun r => r.version != am.version) }
            (acc + 1) := by
        simp only [downToLoop, happ]
        rw [if_neg hc]
      rw [hstep]
      obtain ⟨h1, h2, h3, h4⟩ :=
        ih _ (acc + 1) (fun r hr hlt2 => hall r (List.mem_cons_of_mem am hr) hlt2)
      simp only [List.takeWhile_cons, hpred, if_true]
      refine ⟨?_, h2, ?_, ?_⟩
      · rw [h1]
        simp
        omega
      · rw [h3]
        simp
      · intro u
        rw [h4 u]
        constructor
        · rintro ⟨hva, hnm⟩
          obtain ⟨hvw, hne⟩ := (hasVersion_filterNe_iff w.ledger am.version u).mp hva
          refine ⟨hvw, ?_⟩
          simp only [List.map_cons, List.mem_cons]
          tauto
        · rintro ⟨hvw, hnm⟩
          simp only [List.map_cons, List.mem_cons] at hnm
          push_neg at hnm
          exact ⟨(hasVersion_filterNe_iff w.ledger am.version u).mpr
            ⟨hvw, hnm.1⟩, hnm.2⟩

/-- Claim C7: `DownTo(v)` rolls back exactly the applied migrations whose
version is strictly greater than `v`, most recent first, returning their
count; afterwards exactly the rows with version at most `v` remain, and
(for a duplicate-free ledger) the rollback order is strictly descending. -/
theorem c7_downTo_rolls_back_above_target (m : Migrator) (env : Env)
    (w : World) (target : Nat) (henv : EnvOk env)
    (hall : ∀ r ∈ w.ledger, target < r.version →
      downApplicableB m r.version = true) :
    (m.downTo env w target).1 =
      (w.ledger.filter (fun r => decide (target < r.version))).length ∧
    (m.downTo env w target).2.1 = none ∧
    (m.downTo env w target).2.2.trace = w.trace ++
      ((sortDesc w.ledger).filter (fun r => decide (target < r.version))).map
        (fun r => (r.version, ("down" : Direction))) ∧
    (∀ u, hasVersion (m.downTo env w target).2.2.ledger u = true ↔
      (hasVersion w.ledger u = true ∧ u ≤ target)) ∧
    ((w.ledger.map (fun r => r.version)).Nodup →
      List.Pairwise (· > ·)
        (((sortDesc w.ledger).filter (fun r => decide (target < r.version))).map
          (fun r => r.version))) := by
  have hE := ensure_none_eq m env w henv.1 (fun _ => henv.2.1)
  have hdt : m.downTo env w target =
      downToLoop m env (sortDesc w.ledger) target
        ({ w with tableExists := true } : World) 0 := by
    unfold Migrator.downTo Migrator.getAppliedMigrations
    simp only [hE, henv.2.2.1]
  have htf := takeWhile_eq_filter_desc target (sortDesc w.ledger)
    (sortDesc_sorted w.ledger)
  have hall2 : ∀ r ∈ sortDesc w.ledger, target < r.version →
      downApplicableB m r.version = true :=
    fun r hr => hall r ((sortDesc_perm w.ledger).mem_iff.mp hr)
  obtain ⟨h1, h2, h3, h4⟩ :=
    downToLoop_all m env henv target (sortDesc w.ledger)
      ({ w with tableExists := true } : World) 0 hall2
  rw [hdt]
  have hperm := (sortDesc_perm w.ledger).filter
    (fun r => decide (target < r.version))
  refine ⟨?_, h2, ?_, ?_, ?_⟩
  · rw [h1, htf, hperm.length_eq]
    omega
  · rw [h3, htf]
  · intro u
    rw [h4 u, htf]
    constructor
    · rintro ⟨hv, hnot⟩
      refine ⟨hv, ?_⟩
      by_contra hgt
      push_neg at hgt
      obtain ⟨r, hr, hrv⟩ := (hasVersion_iff_exists _ _).mp hv
      apply hnot
      rw [List.mem_map]
      refine ⟨r, ?_, hrv⟩
      rw [List.mem_filter]
      refine ⟨(sortDesc_perm w.ledger).mem_iff.mpr hr, ?_⟩
      simp
      omega
    · rintro ⟨hv, hle⟩
      refine ⟨hv, ?_⟩
      intro hmem
      obtain ⟨r, hr, hrv⟩ := List.mem_map.mp hmem
      obtain ⟨-, hcond⟩ := List.mem_filter.mp hr
      simp at hcond
      omega
  · intro hnodup
    have hsorted : (sortDesc w.ledger).Pairwise
        (fun a b => b.version ≤ a.version) := sortDesc_sorted w.ledger
    have hfsorted : ((sortDesc w.ledger).filter
        (fun r => decide (target < r.version))).Pairwise
        (fun a b => b.version ≤ a.version) :=
      hsorted.sublist (List.filter_sublist _)
    have hmap : (((sortDesc w.ledger).filter
        (fun r => decide (target < r.version))).map
        (fun r => r.version)).Pairwise (fun a b => b ≤ a) :=
      List.pairwise_map.mpr hfsorted
    have hnd : (((sortDesc w.ledger).filter
        (fun r => decide (target < r.version))).map
        (fun r => r.version)).Nodup := by
      have hnd1 : ((sortDesc w.ledger).map (fun r => r.version)).Nodup :=
        (((sortDesc_perm w.ledger).map (fun r => r.version)).nodup_iff).mpr hnodup
      have hsub2 : (((sortDesc w.ledger).filter
          (fun r => decide (target < r.version))).map
          (fun r => r.version)).Sublist
          ((sortDesc w.ledger).map (fun r => r.version)) :=
        List.Sublist.map (fun r : AppliedMigration => r.version)
          (List.filter_sublist _)
      exact List.Nodup.sublist hsub2 hnd1
    have hcomb := hmap.and hnd
    exact hcomb.imp (fun hab => lt_of_le_of_ne hab.1 (Ne.symm hab.2))

/-- Claim C7 (witness). -/
theorem c7_downTo_rolls_back_above_target_witness :
    (Fix.m2.downTo Fix.envOk Fix.wApplied12 1).2.1 = none :=
  (c7_downTo_rolls_back_above_target Fix.m2 Fix.envOk Fix.wApplied12 1
    ⟨rfl, rfl, rfl, rfl, fun _ => rfl, fun _ => rfl, fun _ => rfl⟩
    (by decide)).2.1

/-- Claim C3 (counterexample): `Steps(ctx, 0)` is not a no-op — on a fresh
cluster it creates the history table before looking at `n`, so the final
state differs from the initial one. -/
theorem c3_steps_zero_not_noop :
    Fix.m2.steps Fix.envOk Fix.wEmpty 0 =
      (none, { Fix.wEmpty with tableExists := true }) ∧
    ({ Fix.wEmpty with tableExists := true } : World) ≠ Fix.wEmpty := by
  exact ⟨by decide, by decide⟩

/-- Claim C3 (amended): `Steps(0)` ensures the history table and then does
nothing further; `Steps(n > 0)` returns `ErrNoChange` when nothing is
pending and otherwise applies `min(n, len(pending))` pending migrations in
pending-list (ascending) order; `Steps(n < 0)` returns `ErrNoChange` when
nothing is applied and otherwise rolls back `min(-n, len(applied))`
applied migrations in descending version order. -/
theorem c3_steps_semantics :
    (∀ (m : Migrator) (env : Env) (w : World),
      env.ensureErr = none →
      (m.waitForSchemaAgreement = true → env.agree = none) →
      m.steps env w 0 = (none, { w with tableExists := true })) ∧
    (∀ (m : Migrator) (env : Env) (w : World) (n : Int), 0 < n →
      env.ensureErr = none →
      (m.waitForSchemaAgreement = true → env.agree = none) →
      env.scanErr = none → pendingOf m w = [] →
      m.steps env w n = (some .noChange, { w with tableExists := true })) ∧
    (∀ (m : Migrator) (env : Env) (w : World) (n : Int), 0 < n →
      EnvOk env → pendingOf m w ≠ [] →
      (∀ p ∈ takenUp m w n, upApplicableB m p = true) →
      (m.steps env w n).1 = none ∧
      (m.steps env w n).2.trace = w.trace ++
        (takenUp m w n).map (fun p => (p.version, ("up" : Direction))) ∧
      (∀ u, hasVersion (m.steps env w n).2.ledger u = true ↔
        (hasVersion w.ledger u = true ∨
          u ∈ (takenUp m w n).map (fun p => p.version))) ∧
      (List.Pairwise (· < ·) ((m.source.list).map (fun p => p.version)) →
        List.Pairwise (· < ·) ((takenUp m w n).map (fun p => p.version)))) ∧
    (∀ (m : Migrator) (env : Env) (w : World) (n : Int), n < 0 →
      env.ensureErr = none →
      (m.waitForSchemaAgreement = true → env.agree = none) →
      env.scanErr = none → w.ledger = [] →
      m.steps env w n = (some .noChange, { w with tableExists := true })) ∧
    (∀ (m : Migrator) (env : Env) (w : World) (n : Int), n < 0 →
      EnvOk env → w.ledger ≠ [] →
      (∀ v ∈ takenDown w n, downApplicableB m v = true) →
      (m.steps env w n).1 = none ∧
      (m.steps env w n).2.trace = w.trace ++
        (takenDown w n).map (fun v => (v, ("down" : Direction))) ∧
      (∀ u, hasVersion (m.steps env w n).2.ledger u = true ↔
        (hasVersion w.ledger u = true ∧ u ∉ takenDown w n)) ∧
      ((w.ledger.map (fun r => r.version)).Nodup →
        List.Pairwise (· > ·) (takenDown w n))) := by
  refine ⟨?_, ?_, ?_, ?_, ?_⟩
  · intro m env w hens hagr
    unfold Migrator.steps
    simp only [ensure_none_eq m env w hens hagr]
    simp
  · intro m env w n hn hens hagr hscan hpend
    unfold Migrator.steps
    simp only [ensure_none_eq m env w hens hagr]
    rw [if_neg (by omega : ¬ n = 0), if_pos hn]
    simp only [pending_ok_eq m env ({ w with tableExists := true } : World) hscan]
    rw [show pendingOf m ({ w with tableExists := true } : World) =
      pendingOf m w from rfl]
    rw [hpend]
    simp
  · intro m env w n hn henv hne hall
    have hsteps : m.steps env w n =
        applySeqUp m env (takenUp m w n)
          ({ w with tableExists := true } : World) := by
      unfold Migrator.steps
      simp only [ensure_none_eq m env w henv.1 (fun _ => henv.2.1)]
      rw [if_neg (by omega : ¬ n = 0), if_pos hn]
      simp only [pending_ok_eq m env ({ w with tableExists := true } : World)
        henv.2.2.1]
      rw [show pendingOf m ({ w with tableExists := true } : World) =
        pendingOf m w from rfl]
      rw [if_neg (fun hco => hne (List.length_eq_zero.mp hco))]
      rfl
    rw [hsteps]
    obtain ⟨h1, h2, h3, h4⟩ :=
      applySeqUp_ok m env henv (takenUp m w n)
        ({ w with tableExists := true } : World) hall
    refine ⟨h1, ?_, ?_, ?_⟩
    · rw [h2]
    · intro u
      exact h4 u
    · intro hsorted
      have hsub : ((takenUp m w n).map (fun p => p.version)).Sublist
          ((m.source.list).map (fun p => p.version)) := by
        apply List.Sublist.map
        unfold takenUp pendingOf
        exact (List.take_sublist _ _).trans (List.filter_sublist _)
      exact hsorted.sublist hsub
  · intro m env w n hn hens hagr hscan hled
    unfold Migrator.steps Migrator.getAppliedMigrations
    simp only [ensure_none_eq m env w hens hagr]
    rw [if_neg (by omega : ¬ n = 0), if_neg (by omega : ¬ 0 < n)]
    simp only [hscan]
    rw [show ({ w with tableExists := true } : World).ledger = w.ledger from rfl]
    rw [hled]
    simp
  · intro m env w n hn henv hne hall
    have hsteps : m.steps env w n =
        applySeqDown m env (takenDown w n)
          ({ w with tableExists := true } : World) := by
      unfold Migrator.steps Migrator.getAppliedMigrations
      simp only [ensure_none_eq m env w henv.1 (fun _ => henv.2.1)]
      rw [if_neg (by omega : ¬ n = 0), if_neg (by omega : ¬ 0 < n)]
      simp only [henv.2.2.1]
      rw [show ({ w with tableExists := true } : World).ledger = w.ledger from rfl]
      rw [if_neg (fun hco => hne (List.length_eq_zero.mp hco))]
      rfl
    rw [hsteps]
    obtain ⟨h1, h2, h3, h4⟩ :=
      applySeqDown_ok m env henv (takenDown w n)
        ({ w with tableExists := true } : World) hall
    refine ⟨h1, ?_, ?_, ?_⟩
    · rw [h2]
    · intro u
      exact h4 u
    · intro hnodup
      have hsorted : (sortDesc w.ledger).Pairwise
          (fun a b => b.version ≤ a.version) := sortDesc_sorted w.ledger
      have htsorted : (((sortDesc w.ledger).take
          (min (-n).toNat w.ledger.length)).map (fun r => r.version)).Pairwise
          (fun a b => b ≤ a) :=
        List.pairwise_map.mpr (hsorted.sublist (List.take_sublist _ _))
      have hnd : (((sortDesc w.ledger).take
          (min (-n).toNat w.ledger.length)).map (fun r => r.version)).Nodup := by
        have hnd1 : ((sortDesc w.ledger).map (fun r => r.version)).Nodup :=
          (((sortDesc_perm w.ledger).map (fun r => r.version)).nodup_iff).mpr
            hnodup
        have hsub2 : (((sortDesc w.ledger).take
            (min (-n).toNat w.ledger.length)).map
            (fun r => r.version)).Sublist
            ((sortDesc w.ledger).map (fun r => r.version)) :=
          List.Sublist.map (fun r : AppliedMigration => r.version)
            (List.take_sublist _ _)
        exact List.Nodup.sublist hsub2 hnd1
      have hcomb := htsorted.and hnd
      exact hcomb.imp (fun hab => lt_of_le_of_ne hab.1 (Ne.symm hab.2))

/-- Claim C3 (witness). -/
theorem c3_steps_semantics_witness :
    (Fix.m2.steps Fix.envOk Fix.wEmpty 1).1 = none :=
  (c3_steps_semantics.2.2.1 Fix.m2 Fix.envOk Fix.wEmpty 1 (by decide)
    ⟨rfl, rfl, rfl, rfl, fun _ => rfl, fun _ => rfl, fun _ => rfl⟩
    (by decide) (by decide)).1

end Scylla
